import Mathlib

/-!
Verification development for the in-memory ledger core of
`finance_advisor_budgeting_tool_ITA.py`: data model (accounts, cards,
categorized fixed expenses, income singleton, category set), identifier
allocation, derived metrics, monetary parsing/formatting, and JSON
persistence (serialize / load with category migration).

Modelling conventions: Python `float` amounts are modelled as exact
rationals (`ℚ`); Python `dict`s (which preserve insertion order) are
modelled as association lists `List (String × _)`; the JSON document is
modelled by an inductive `Json` value; UI handlers are modelled as pure
functions taking the stripped text-field contents (and the `_safe_float`
parse result) as arguments, returning the updated store and, where a
claim needs it, an explicit outcome describing what was reported.
`str.lower` is modelled on ASCII letters (every category and identifier
in the program is ASCII), and Python's stable `sorted` is modelled by a
stable insertion sort.
-/

namespace FinanceTool

/-- Whitespace characters recognised by Python's `str.strip()` /
`str.split()` defaults (the ASCII subset that can occur in this app). -/
def isWS (c : Char) : Bool :=
  c = ' ' || c = '\t' || c = '\n' || c = '\r'

/-- Strip leading and trailing whitespace from a character list
(model of Python `str.strip()`). -/
def trimWS (l : List Char) : List Char :=
  ((l.dropWhile isWS).reverse.dropWhile isWS).reverse

/-- Model of Python `str.strip()`. -/
def strip (s : String) : String := String.mk (trimWS s.data)

/-- ASCII-lowercase a character (model of `str.lower` on the ASCII
letters used by this program). -/
def lowerChar (c : Char) : Char :=
  if 'A' ≤ c ∧ c ≤ 'Z' then Char.ofNat (c.toNat + 32) else c

/-- ASCII-lowercase a string (model of `str.lower()`). -/
def lowerStr (s : String) : String := String.mk (s.data.map lowerChar)

/-- Decimal digit character for `d < 10`. -/
def digitChar (d : Nat) : Char := Char.ofNat (48 + d)

/-- Fuel-driven big-endian decimal digit rendering of a natural number;
`fuel > n` suffices.  (Fuel keeps the definition structurally recursive
so that the kernel can evaluate it.) -/
def natDigitsAux : Nat → Nat → List Char
  | 0, _ => []
  | fuel + 1, n =>
    if n < 10 then [digitChar n]
    else natDigitsAux fuel (n / 10) ++ [digitChar (n % 10)]

/-- Big-endian decimal digits of `n` (model of Python's decimal
rendering of a nonnegative integer). -/
def natDigits (n : Nat) : List Char := natDigitsAux (n + 1) n

/-- Base-10 value of a digit-character list (used to relate rendered
numerals back to their value). -/
def digitsVal (l : List Char) : Nat :=
  l.foldl (fun a c => 10 * a + (c.toNat - 48)) 0

/-- The zero-padded numeral of `i` as produced by Python `f"{i:04d}"`:
at least four characters, wider if `i` has more than four digits. -/
def padNum (i : Nat) : List Char :=
  List.replicate (4 - (natDigits i).length) '0' ++ natDigits i

/-- The candidate identifier `f"{pre}{i:04d}"` probed by `_make_id`. -/
def candidateId (pre : String) (i : Nat) : String :=
  pre ++ String.mk (padNum i)

/-- Fuel-driven probing loop of `_make_id`: try counters `i, i+1, …`
until the candidate is not among the existing keys.  The `0`-fuel
fallback is never reached when the fuel exceeds the number of existing
keys (shown by the pigeonhole argument below). -/
def makeIdGo (pre : String) (existing : List String) : Nat → Nat → String
  | 0, i => candidateId pre i
  | fuel + 1, i =>
    if candidateId pre i ∈ existing then makeIdGo pre existing fuel (i + 1)
    else candidateId pre i

/-- Model of `FinanceAdvisorBudgetingToolITA._make_id`: probe counters
from 1 upward and return the first candidate not already used. -/
def makeId (pre : String) (existing : List String) : String :=
  makeIdGo pre existing (existing.length + 1) 1

-- ----------------------------
-- Data model
-- ----------------------------

/-- Model of the `FixedExpense` dataclass. -/
structure FixedExpense where
  name : String
  category : String
  amount : ℚ
  notes : String
deriving DecidableEq

/-- Model of the `BankAccount` dataclass. -/
structure BankAccount where
  bank_name : String
  account_name : String
  balance : ℚ
  fixed_expenses : List FixedExpense
deriving DecidableEq

/-- Model of the `CreditCard` dataclass. -/
structure CreditCard where
  card_name : String
  due_balance : ℚ
  fixed_expenses : List FixedExpense
deriving DecidableEq

/-- Model of the `Income` dataclass (singleton value object). -/
structure Income where
  salary_amount : ℚ := 0
  salary_account_id : Option String := none
deriving DecidableEq

/-- The `DEFAULT_CATEGORIES` constant of the program. -/
def DEFAULT_CATEGORIES : List String := [
  "Affitto / Mutuo",
  "Utenze (Luce/Gas/Acqua)",
  "Internet / Telefonia",
  "Spesa alimentare",
  "Trasporti (Carburante/Mezzi)",
  "Assicurazioni",
  "Salute / Farmacia",
  "Bambini / Famiglia",
  "Casa / Manutenzione",
  "Abbonamenti ricorrenti",
  "Palestra / Fitness",
  "Ristoranti / Takeaway",
  "Intrattenimento",
  "Viaggi",
  "Risparmio / Investimenti",
  "Tasse / Imposte",
  "Regali / Donazioni"]

/-- The in-memory ledger aggregate: insertion-ordered account and card
maps, the income singleton, the category list, and the save timestamp
(the mutable state owned by `FinanceAdvisorBudgetingToolITA`). -/
structure Store where
  accounts : List (String × BankAccount)
  cards : List (String × CreditCard)
  income : Income
  categories : List String
  last_saved_at : Option String
deriving DecidableEq

/-- The state constructed by `__init__`: empty maps, default income,
the default category list, no saved timestamp. -/
def initStore : Store :=
  { accounts := [], cards := [], income := {}, categories := DEFAULT_CATEGORIES,
    last_saved_at := none }

/-- Keys of an association list (model of `dict` key view). -/
def assocKeys {α : Type} (l : List (String × α)) : List String := l.map Prod.fst

/-- Lookup in an association list (model of `dict` indexing; keys are
unique in every dictionary the program builds). -/
def lookupKey {α : Type} : List (String × α) → String → Option α
  | [], _ => none
  | p :: t, k => if p.1 = k then some p.2 else lookupKey t k

-- ----------------------------
-- Core calculations
-- ----------------------------

/-- Model of `account_monthly_expenses`: sum of the account's fixed
expense amounts. -/
def account_monthly_expenses (acc : BankAccount) : ℚ :=
  (acc.fixed_expenses.map FixedExpense.amount).sum

/-- Model of `card_monthly_expenses`: sum of the card's fixed expense
amounts. -/
def card_monthly_expenses (card : CreditCard) : ℚ :=
  (card.fixed_expenses.map FixedExpense.amount).sum

/-- Model of `total_monthly_expenses`: account expenses plus card
expenses over the whole store. -/
def total_monthly_expenses (s : Store) : ℚ :=
  (s.accounts.map (fun p => account_monthly_expenses p.2)).sum
    + (s.cards.map (fun p => card_monthly_expenses p.2)).sum

/-- Model of `account_effective_balance`: gross balance minus the
account's monthly expenses. -/
def account_effective_balance (acc : BankAccount) : ℚ :=
  acc.balance - account_monthly_expenses acc

/-- Model of `cash_effective` in `_refresh_dashboard`: the sum of all
accounts' effective balances. -/
def totalEffectiveCash (s : Store) : ℚ :=
  (s.accounts.map (fun p => account_effective_balance p.2)).sum

/-- Model of `debt` in `_refresh_dashboard`: the sum of all cards' due
balances. -/
def totalDebt (s : Store) : ℚ :=
  (s.cards.map (fun p => p.2.due_balance)).sum

/-- Model of `net` in `_refresh_dashboard`: effective cash minus card
debt. -/
def netWorth (s : Store) : ℚ := totalEffectiveCash s - totalDebt s

-- ----------------------------
-- Category normalization
-- ----------------------------

/-- The entry the dict comprehension `lower_map = {c.lower(): c for c in
categories}` associates with key `k`: the last list element whose
lowercase form is `k`. -/
def lookupLower : List String → String → Option String
  | [], _ => none
  | c :: t, k =>
    match lookupLower t k with
    | some v => some v
    | none => if lowerStr c = k then some c else none

/-- The `base_exact` list of `_normalize_categories_order`: for each
default category whose lowercase form occurs in the list, the stored
spelling from `lower_map`. -/
def baseExact (l : List String) : List String :=
  DEFAULT_CATEGORIES.filterMap (fun d => lookupLower l (lowerStr d))

/-- Lexicographic (code-point) comparison of character lists, the order
Python uses to compare strings. -/
def charListLe : List Char → List Char → Bool
  | [], _ => true
  | _ :: _, [] => false
  | a :: as, b :: bs =>
    if a.toNat < b.toNat then true
    else if b.toNat < a.toNat then false
    else charListLe as bs

/-- The `key=lambda x: x.lower()` comparison used by
`_normalize_categories_order`'s sort. -/
def lowerLe (a b : String) : Bool :=
  charListLe (lowerStr a).data (lowerStr b).data

/-- Insert `a` after every already-placed element whose key is not
greater — the insertion step of a stable sort. -/
def insertLe (a : String) : List String → List String
  | [] => [a]
  | b :: l => if lowerLe b a then b :: insertLe a l else a :: b :: l

/-- Stable sort by lowercase key (model of Python's stable
`sorted(rest, key=lambda x: x.lower())`). -/
def sortLower (l : List String) : List String :=
  l.foldl (fun acc a => insertLe a acc) []

/-- Model of `_normalize_categories_order`: known default categories
first in canonical order (in their stored spelling), then the remaining
categories sorted case-insensitively. -/
def normalizeCategoriesOrder (l : List String) : List String :=
  let base := baseExact l
  let baseLowers := base.map lowerStr
  base ++ sortLower (l.filter (fun c => lowerStr c ∉ baseLowers))

-- ----------------------------
-- Mutation operations
-- ----------------------------

/-- Collapse internal whitespace runs to single spaces (model of
`" ".join(raw.split())`). -/
def collapseWS (s : String) : String :=
  String.mk (List.intercalate [' '] ((s.data.splitOnP isWS).filter (· ≠ [])))

/-- Model of `add_category`: reject blank input, reject a
case-insensitive duplicate, otherwise append and re-normalize.  The
argument is the raw entry text (`add_category` strips it itself). -/
def addCategory (s : Store) (rawInput : String) : Store :=
  if strip rawInput = "" then s
  else
    let name := collapseWS (strip rawInput)
    if (s.categories.map lowerStr).contains (lowerStr name) then s
    else { s with categories := normalizeCategoriesOrder (s.categories ++ [name]) }

/-- Outcome reported by `delete_category` to the presentation layer. -/
inductive CatDelOutcome where
  | emptySelection
  | notFound
  | lastCategory
  | inUse (blockers : List String)
  | deleted
deriving DecidableEq

/-- The `used_in` list built by `delete_category`: a formatted line for
every account and card owning an expense whose category exactly equals
`cat`. -/
def categoryBlockers (s : Store) (cat : String) : List String :=
  (s.accounts.filter (fun p => p.2.fixed_expenses.any (fun e => e.category = cat))).map
      (fun p => "Conto " ++ p.1 ++ " (" ++ p.2.bank_name ++ "/" ++ p.2.account_name ++ ")")
    ++ (s.cards.filter (fun p => p.2.fixed_expenses.any (fun e => e.category = cat))).map
      (fun p => "Carta " ++ p.1 ++ " (" ++ p.2.card_name ++ ")")

/-- Model of `delete_category` (with the user confirming the dialog):
check blank, absence, last-category, and in-use in the order of the
source, else remove the name and re-normalize. -/
def deleteCategory (s : Store) (categoryName : String) : Store × CatDelOutcome :=
  let cat := strip categoryName
  if cat = "" then (s, .emptySelection)
  else if cat ∉ s.categories then (s, .notFound)
  else if s.categories.length ≤ 1 then (s, .lastCategory)
  else
    let used := categoryBlockers s cat
    if used ≠ [] then (s, .inUse used)
    else ({ s with categories := normalizeCategoriesOrder (s.categories.filter (· ≠ cat)) },
          .deleted)

/-- Model of `add_account`: arguments are the stripped entry texts and
the `_safe_float` result; on any validation failure the store is
unchanged (the handler only shows a warning). -/
def addAccount (s : Store) (bank accName : String) (bal : Option ℚ) : Store :=
  match bal with
  | none => s
  | some b =>
    if bank = "" ∨ accName = "" then s
    else
      let accId := makeId "ACC" (assocKeys s.accounts)
      { s with accounts := s.accounts ++ [(accId, ⟨bank, accName, b, []⟩)] }

/-- Model of `delete_selected_account` (dialog confirmed): remove the
account and clear the income's salary-account reference when it pointed
at the deleted id. -/
def deleteSelectedAccount (s : Store) (accSel : Option String) : Store :=
  match accSel with
  | none => s
  | some accId =>
    if accId = "" ∨ ¬ (assocKeys s.accounts).contains accId then s
    else
      { s with
        accounts := s.accounts.filter (fun p => p.1 ≠ accId),
        income :=
          if s.income.salary_account_id = some accId then
            { s.income with salary_account_id := none }
          else s.income }

/-- Model of `update_account_balance`: replace only the balance of the
selected account. -/
def updateAccountBalance (s : Store) (accSel : Option String) (newBal : Option ℚ) : Store :=
  match accSel with
  | none => s
  | some accId =>
    if accId = "" ∨ ¬ (assocKeys s.accounts).contains accId then s
    else
      match newBal with
      | none => s
      | some b =>
        { s with accounts :=
            s.accounts.map (fun p => if p.1 = accId then (p.1, { p.2 with balance := b }) else p) }

/-- Model of `add_account_expense`: validate the selection and fields,
then append the expense to the selected account's list. -/
def addAccountExpense (s : Store) (accSel : Option String) (name category : String)
    (amount : Option ℚ) (notes : String) : Store :=
  match accSel with
  | none => s
  | some accId =>
    if accId = "" ∨ ¬ (assocKeys s.accounts).contains accId then s
    else
      match amount with
      | none => s
      | some amt =>
        if name = "" ∨ category = "" then s
        else
          { s with accounts :=
              s.accounts.map (fun p =>
                if p.1 = accId then
                  (p.1, { p.2 with fixed_expenses := p.2.fixed_expenses ++ [⟨name, category, amt, notes⟩] })
                else p) }

/-- What `delete_selected_account_expense` / `delete_selected_card_expense`
report: a warning dialog for a missing owner or missing tree selection,
a status line after a removal, and — for an out-of-range index —
nothing at all (the `0 <= idx < len` guard has no else branch). -/
inductive ExpDelOutcome where
  | removed
  | noOwner
  | noSelection
  | ignoredOutOfRange
deriving DecidableEq

/-- Whether the outcome surfaces an error report to the user. -/
def expDelReportsError : ExpDelOutcome → Bool
  | .noOwner => true
  | .noSelection => true
  | .removed => false
  | .ignoredOutOfRange => false

/-- Model of `delete_selected_account_expense` (dialog confirmed):
`sel` is the expense index parsed from the selected `EXPn` row. -/
def deleteSelectedAccountExpense (s : Store) (accSel : Option String) (sel : Option Nat) :
    Store × ExpDelOutcome :=
  match accSel with
  | none => (s, .noOwner)
  | some accId =>
    if accId = "" ∨ ¬ (assocKeys s.accounts).contains accId then (s, .noOwner)
    else
      match sel with
      | none => (s, .noSelection)
      | some idx =>
        let exps := match lookupKey s.accounts accId with
          | some a => a.fixed_expenses
          | none => []
        if idx < exps.length then
          ({ s with accounts :=
              s.accounts.map (fun p =>
                if p.1 = accId then (p.1, { p.2 with fixed_expenses := p.2.fixed_expenses.eraseIdx idx })
                else p) },
           .removed)
        else (s, .ignoredOutOfRange)

/-- Model of `add_card`. -/
def addCard (s : Store) (cardName : String) (due : Option ℚ) : Store :=
  match due with
  | none => s
  | some d =>
    if cardName = "" then s
    else
      let cardId := makeId "CRD" (assocKeys s.cards)
      { s with cards := s.cards ++ [(cardId, ⟨cardName, d, []⟩)] }

/-- Model of `delete_selected_card` (dialog confirmed); no cascade. -/
def deleteSelectedCard (s : Store) (cardSel : Option String) : Store :=
  match cardSel with
  | none => s
  | some cardId =>
    if cardId = "" ∨ ¬ (assocKeys s.cards).contains cardId then s
    else { s with cards := s.cards.filter (fun p => p.1 ≠ cardId) }

/-- Model of `update_card_due`. -/
def updateCardDue (s : Store) (cardSel : Option String) (newDue : Option ℚ) : Store :=
  match cardSel with
  | none => s
  | some cardId =>
    if cardId = "" ∨ ¬ (assocKeys s.cards).contains cardId then s
    else
      match newDue with
      | none => s
      | some d =>
        { s with cards :=
            s.cards.map (fun p => if p.1 = cardId then (p.1, { p.2 with due_balance := d }) else p) }

/-- Model of `add_card_expense`. -/
def addCardExpense (s : Store) (cardSel : Option String) (name category : String)
    (amount : Option ℚ) (notes : String) : Store :=
  match cardSel with
  | none => s
  | some cardId =>
    if cardId = "" ∨ ¬ (assocKeys s.cards).contains cardId then s
    else
      match amount with
      | none => s
      | some amt =>
        if name = "" ∨ category = "" then s
        else
          { s with cards :=
              s.cards.map (fun p =>
                if p.1 = cardId then
                  (p.1, { p.2 with fixed_expenses := p.2.fixed_expenses ++ [⟨name, category, amt, notes⟩] })
                else p) }

/-- Model of `delete_selected_card_expense` (dialog confirmed). -/
def deleteSelectedCardExpense (s : Store) (cardSel : Option String) (sel : Option Nat) :
    Store × ExpDelOutcome :=
  match cardSel with
  | none => (s, .noOwner)
  | some cardId =>
    if cardId = "" ∨ ¬ (assocKeys s.cards).contains cardId then (s, .noOwner)
    else
      match sel with
      | none => (s, .noSelection)
      | some idx =>
        let exps := match lookupKey s.cards cardId with
          | some c => c.fixed_expenses
          | none => []
        if idx < exps.length then
          ({ s with cards :=
              s.cards.map (fun p =>
                if p.1 = cardId then (p.1, { p.2 with fixed_expenses := p.2.fixed_expenses.eraseIdx idx })
                else p) },
           .removed)
        else (s, .ignoredOutOfRange)

/-- Model of `save_income`: `selectedId` is the id extracted from the
combo text (none when the combo is empty); an id that does not exist in
the store is silently treated as none. -/
def saveIncome (s : Store) (salary : Option ℚ) (selectedId : Option String) : Store :=
  match salary with
  | none => s
  | some v =>
    let accId := match selectedId with
      | some id => if (assocKeys s.accounts).contains id then some id else none
      | none => none
    { s with income := { salary_amount := v, salary_account_id := accId } }

-- ----------------------------
-- Monetary formatting and parsing
-- ----------------------------

/-- Round a rational to the nearest integer, ties to even (the rounding
Python's fixed-point float formatting performs; floats are modelled as
exact rationals). -/
def roundHalfEven (q : ℚ) : ℤ :=
  if q - ⌊q⌋ < 1 / 2 then ⌊q⌋
  else if 1 / 2 < q - ⌊q⌋ then ⌊q⌋ + 1
  else if ⌊q⌋ % 2 = 0 then ⌊q⌋ else ⌊q⌋ + 1

/-- Insert a grouping separator after every third character of a
reversed digit list (the thousands grouping of `f"{x:,.2f}"`, after the
replace chain has turned the separator into a dot). -/
def group3rev : List Char → List Char
  | a :: b :: c :: d :: rest => a :: b :: c :: '.' :: group3rev (d :: rest)
  | l => l

/-- Two-digit zero-padded rendering of `k < 100` (the fraction part of
`f"{x:.2f}"`). -/
def pad2 (k : Nat) : List Char := [digitChar (k / 10), digitChar (k % 10)]

/-- Model of `_fmt_eur` as a character list: `f"€ {x:,.2f}"` followed by
the replace chain swapping `,` and `.` — currency marker, minus sign
for negative amounts, dot-grouped integer digits, a comma, then exactly
two fraction digits.  (A float's negative zero has no rational
counterpart, so `-0.005 ≤ x < 0` renders without the sign here.) -/
def fmtEurChars (x : ℚ) : List Char :=
  let n := roundHalfEven (100 * x)
  let m := n.natAbs
  '€' :: ' ' ::
    ((if n < 0 then ['-'] else [])
      ++ (group3rev (natDigits (m / 100)).reverse).reverse
      ++ ',' :: pad2 (m % 100))

/-- Model of `_fmt_eur`. -/
def fmtEur (x : ℚ) : String := String.mk (fmtEurChars x)

/-- All characters are decimal digits. -/
def digitsOk (l : List Char) : Bool := l.all Char.isDigit

/-- Value of an unsigned decimal literal, on the fragment of Python
`float()` syntax reachable after `_safe_float`'s replace chain:
digits with at most one dot and at least one digit. -/
def parseUnsigned (l : List Char) : Option ℚ :=
  let ip := l.takeWhile (· ≠ '.')
  match l.dropWhile (· ≠ '.') with
  | [] => if digitsOk ip ∧ ip ≠ [] then some (digitsVal ip) else none
  | '.' :: fp =>
    if digitsOk ip ∧ digitsOk fp ∧ (ip ≠ [] ∨ fp ≠ []) then
      some (digitsVal ip + digitsVal fp / (10 : ℚ) ^ fp.length)
    else none
  | _ => none

/-- Signed decimal literal (Python `float()` accepts a leading sign). -/
def parseSigned (l : List Char) : Option ℚ :=
  match l with
  | [] => parseUnsigned []
  | c :: rest =>
    if c = '-' then (parseUnsigned rest).map (fun q => -q)
    else if c = '+' then parseUnsigned rest
    else parseUnsigned (c :: rest)

/-- The cleaning chain of `_safe_float`: strip, drop `€` and spaces,
drop grouping dots, and read the comma as the decimal point. -/
def cleanChars (l : List Char) : List Char :=
  ((((trimWS l).filter (· ≠ '€')).filter (· ≠ ' ')).filter (· ≠ '.')).map
    (fun c => if c = ',' then '.' else c)

/-- Model of `_safe_float`: clean the text and parse it as a decimal
number, `none` on failure. -/
def safeFloat (s : String) : Option ℚ := parseSigned (cleanChars s.data)

-- ----------------------------
-- Persistence
-- ----------------------------

/-- The JSON documents exchanged with the storage file. -/
inductive Json where
  | null
  | num (q : ℚ)
  | str (s : String)
  | arr (items : List Json)
  | obj (fields : List (String × Json))

/-- Field access on a JSON object (model of `dict.get` after
`json.load`, whose duplicate keys collapse last-wins). -/
def getField : List (String × Json) → String → Option Json
  | [], _ => none
  | p :: t, k =>
    match getField t k with
    | some v => some v
    | none => if p.1 = k then some p.2 else none

/-- Model of the expense dictionaries written by `_serialize` via
`asdict`. -/
def serializeExpense (e : FixedExpense) : Json :=
  .obj [("name", .str e.name), ("category", .str e.category),
        ("amount", .num e.amount), ("notes", .str e.notes)]

/-- Model of the per-account dictionary written by `_serialize`. -/
def serializeAccount (a : BankAccount) : Json :=
  .obj [("bank_name", .str a.bank_name), ("account_name", .str a.account_name),
        ("balance", .num a.balance),
        ("fixed_expenses", .arr (a.fixed_expenses.map serializeExpense))]

/-- Model of the per-card dictionary written by `_serialize`. -/
def serializeCard (c : CreditCard) : Json :=
  .obj [("card_name", .str c.card_name), ("due_balance", .num c.due_balance),
        ("fixed_expenses", .arr (c.fixed_expenses.map serializeExpense))]

/-- Model of `_serialize`: the complete persisted document. -/
def serialize (s : Store) : Json :=
  .obj [("app", .str "finance_advisor_budgeting_tool_ITA"),
        ("meta", .obj [("last_saved_at",
          match s.last_saved_at with | some t => .str t | none => .null)]),
        ("categories", .arr (s.categories.map .str)),
        ("accounts", .obj (s.accounts.map (fun p => (p.1, serializeAccount p.2)))),
        ("cards", .obj (s.cards.map (fun p => (p.1, serializeCard p.2)))),
        ("income", .obj [("salary_amount", .num s.income.salary_amount),
          ("salary_account_id",
            match s.income.salary_account_id with | some i => .str i | none => .null)])]

/-- Reconstruction of one expense, `FixedExpense(**e)`: fails (raising
into the surrounding `except`) when `e` is not an object, has an
unexpected key, or lacks one of the required fields; a missing `notes`
defaults to the empty string. -/
def parseExpense : Json → Option FixedExpense
  | .obj kvs =>
    if kvs.all (fun p => p.1 = "name" ∨ p.1 = "category" ∨ p.1 = "amount" ∨ p.1 = "notes") then
      match getField kvs "name", getField kvs "category", getField kvs "amount" with
      | some (.str n), some (.str c), some (.num a) =>
        match getField kvs "notes" with
        | some (.str nt) => some ⟨n, c, a, nt⟩
        | none => some ⟨n, c, a, ""⟩
        | some _ => none
      | _, _, _ => none
    else none
  | _ => none

/-- Sequence an element parser over a JSON list (a list comprehension
whose element reconstruction may raise). -/
def parseList {β : Type} (f : Json → Option β) : List Json → Option (List β)
  | [] => some []
  | j :: t => (f j).bind fun x => (parseList f t).bind fun xs => some (x :: xs)

/-- Sequence an element parser over a JSON object's entries, keeping
the keys (reconstruction of a saved `dict` of entities). -/
def parseAssoc {β : Type} (f : Json → Option β) :
    List (String × Json) → Option (List (String × β))
  | [] => some []
  | p :: t => (f p.2).bind fun x => (parseAssoc f t).bind fun xs => some ((p.1, x) :: xs)

/-- Reconstruction of an owner's expense list,
`[FixedExpense(**e) for e in obj.get("fixed_expenses", [])]`. -/
def parseExpenses : Option Json → Option (List FixedExpense)
  | none => some []
  | some (.arr items) => parseList parseExpense items
  | some _ => none

/-- A saved text field with default: `obj.get(key, "")` (a non-string
value makes the typed reconstruction fail). -/
def strOrEmpty : Option Json → Option String
  | none => some ""
  | some (.str s) => some s
  | some _ => none

/-- A saved numeric field with default: `float(obj.get(key, 0.0))`. -/
def numOrZero : Option Json → Option ℚ
  | none => some 0
  | some (.num q) => some q
  | some _ => none

/-- A saved optional-string field: absent and `null` both read back as
`none`. -/
def optStrOrNone : Option Json → Option (Option String)
  | none => some none
  | some .null => some none
  | some (.str s) => some (some s)
  | some _ => none

/-- Reconstruction of one account from its saved dictionary: missing
text fields default to `""`, a missing balance defaults to `0`. -/
def parseAccountObj : Json → Option BankAccount
  | .obj kvs =>
    (parseExpenses (getField kvs "fixed_expenses")).bind fun exps =>
    (strOrEmpty (getField kvs "bank_name")).bind fun bn =>
    (strOrEmpty (getField kvs "account_name")).bind fun an =>
    (numOrZero (getField kvs "balance")).bind fun b =>
    some ⟨bn, an, b, exps⟩
  | _ => none

/-- Reconstruction of the saved `accounts` mapping; a missing key
defaults to the empty mapping. -/
def parseAccounts : Option Json → Option (List (String × BankAccount))
  | none => some []
  | some (.obj kvs) => parseAssoc parseAccountObj kvs
  | some _ => none

/-- Reconstruction of one card from its saved dictionary. -/
def parseCardObj : Json → Option CreditCard
  | .obj kvs =>
    (parseExpenses (getField kvs "fixed_expenses")).bind fun exps =>
    (strOrEmpty (getField kvs "card_name")).bind fun cn =>
    (numOrZero (getField kvs "due_balance")).bind fun d =>
    some ⟨cn, d, exps⟩
  | _ => none

/-- Reconstruction of the saved `cards` mapping. -/
def parseCards : Option Json → Option (List (String × CreditCard))
  | none => some []
  | some (.obj kvs) => parseAssoc parseCardObj kvs
  | some _ => none

/-- Reconstruction of the income singleton: a missing `income` object
or missing fields default; the saved `salary_account_id` is taken
as-is, with no check against the loaded accounts. -/
def parseIncome : Option Json → Option Income
  | none => some {}
  | some (.obj kvs) =>
    (numOrZero (getField kvs "salary_amount")).bind fun v =>
    (optStrOrNone (getField kvs "salary_account_id")).bind fun aid =>
    some ⟨v, aid⟩
  | some _ => none

/-- Reconstruction of `meta.last_saved_at`
(`raw.get("meta", {}).get("last_saved_at")`). -/
def parseMeta (kvs : List (String × Json)) : Option (Option String) :=
  match getField kvs "meta" with
  | none => some none
  | some (.obj m) => optStrOrNone (getField m "last_saved_at")
  | some _ => none

/-- The category list taken from the document: a non-list or empty-list
value falls back to the defaults; a list with a non-string member makes
the subsequent `.lower()` calls raise (parse failure). -/
def parseCats : Option Json → Option (List String)
  | none => some DEFAULT_CATEGORIES
  | some (.arr []) => some DEFAULT_CATEGORIES
  | some (.arr items) =>
    parseList (fun it => match it with | .str t => some t | _ => none) items
  | some _ => some DEFAULT_CATEGORIES

/-- The forward migration `_load_state` applies to the loaded category
list: append each canonical default whose lowercase form is absent,
then re-normalize. -/
def migrateCats (cats : List String) : List String :=
  normalizeCategoriesOrder
    (cats ++ DEFAULT_CATEGORIES.filter (fun d => lowerStr d ∉ cats.map lowerStr))

/-- The body of `_load_state`'s `try` block on a non-empty document:
reconstruct every part, `none` modelling an exception reaching the
`except` handler. -/
def parseState : Json → Option Store
  | .obj kvs =>
    (parseMeta kvs).bind fun last =>
    (parseCats (getField kvs "categories")).bind fun cats =>
    (parseAccounts (getField kvs "accounts")).bind fun accs =>
    (parseCards (getField kvs "cards")).bind fun cds =>
    (parseIncome (getField kvs "income")).bind fun inc =>
    some { accounts := accs, cards := cds, income := inc,
           categories := migrateCats cats, last_saved_at := last }
  | _ => none

/-- Python truthiness of the value returned by `Storage.load` (an empty
document skips reconstruction entirely). -/
def jsonFalsy : Json → Bool
  | .null => true
  | .num q => q = 0
  | .str t => t = ""
  | .arr items => items.isEmpty
  | .obj kvs => kvs.isEmpty

/-- Model of `_load_state` applied to the value `Storage.load`
returned: an empty/falsy document keeps the startup state, a document
the `try` block cannot reconstruct resets to the startup state (the
`except` branch), otherwise the reconstructed store. -/
def loadState (raw : Json) : Store :=
  if jsonFalsy raw then initStore
  else
    match parseState raw with
    | some st => st
    | none => initStore

/-- Model of `Storage.load`: a missing or unparseable file yields the
empty document `{}`. -/
def storageLoad : Option Json → Json
  | none => .obj []
  | some j => j

/-- The stores reachable from the startup state through the public
mutation operations. -/
inductive Reachable : Store → Prop where
  | init : Reachable initStore
  | addAccount (s bank accName bal) : Reachable s → Reachable (addAccount s bank accName bal)
  | deleteSelectedAccount (s sel) : Reachable s → Reachable (deleteSelectedAccount s sel)
  | updateAccountBalance (s sel bal) : Reachable s → Reachable (updateAccountBalance s sel bal)
  | addAccountExpense (s sel name cat amt notes) : Reachable s →
      Reachable (addAccountExpense s sel name cat amt notes)
  | deleteSelectedAccountExpense (s sel idx) : Reachable s →
      Reachable (deleteSelectedAccountExpense s sel idx).1
  | addCard (s name due) : Reachable s → Reachable (addCard s name due)
  | deleteSelectedCard (s sel) : Reachable s → Reachable (deleteSelectedCard s sel)
  | updateCardDue (s sel due) : Reachable s → Reachable (updateCardDue s sel due)
  | addCardExpense (s sel name cat amt notes) : Reachable s →
      Reachable (addCardExpense s sel name cat amt notes)
  | deleteSelectedCardExpense (s sel idx) : Reachable s →
      Reachable (deleteSelectedCardExpense s sel idx).1
  | saveIncome (s sal sel) : Reachable s → Reachable (saveIncome s sal sel)
  | addCategory (s raw) : Reachable s → Reachable (addCategory s raw)
  | deleteCategory (s cat) : Reachable s → Reachable (deleteCategory s cat).1

-- ----------------------------
-- Concrete example data (used by witnesses and counterexamples)
-- ----------------------------

/-- A concrete fixed expense. -/
def egExpense : FixedExpense := ⟨"Affitto", "Affitto / Mutuo", 0, ""⟩

/-- A concrete store with one account (one expense), one card (one
expense), and the salary paid into the account. -/
def egStore : Store :=
  { accounts := [("ACC0001", ⟨"Banca Alfa", "Conto Base", 0, [egExpense]⟩)],
    cards := [("CRD0001", ⟨"Visa", 0, [egExpense]⟩)],
    income := ⟨0, some "ACC0001"⟩,
    categories := DEFAULT_CATEGORIES,
    last_saved_at := none }

-- ----------------------------
-- Association-list lemmas
-- ----------------------------

theorem contains_of_lookupKey {α : Type} (l : List (String × α)) (k : String) (v : α)
    (h : lookupKey l k = some v) : (assocKeys l).contains k = true := by
  induction l with
  | nil => simp [lookupKey] at h
  | cons p t ih =>
    by_cases hk : p.1 = k
    · simp [assocKeys, hk]
    · simp only [lookupKey, hk, if_false] at h
      simp [assocKeys, List.contains_cons]
      right
      simpa [assocKeys] using ih h

theorem not_contains_of_lookupKey_none {α : Type} (l : List (String × α)) (k : String)
    (h : lookupKey l k = none) : (assocKeys l).contains k = false := by
  induction l with
  | nil => rfl
  | cons p t ih =>
    by_cases hk : p.1 = k
    · simp [lookupKey, hk] at h
    · simp only [lookupKey, hk, if_false] at h
      simp [assocKeys, List.contains_cons, Ne.symm hk]
      simpa [assocKeys] using ih h

theorem lookupKey_filter_self {α : Type} (l : List (String × α)) (id : String) :
    lookupKey (l.filter (fun p => p.1 ≠ id)) id = none := by
  induction l with
  | nil => rfl
  | cons p t ih =>
    simp only [ne_eq, decide_not] at ih ⊢
    by_cases hp : p.1 = id
    · simpa [List.filter_cons, hp] using ih
    · simp [List.filter_cons, hp, lookupKey, ih]

theorem lookupKey_filter_ne {α : Type} (l : List (String × α)) (id k : String) (h : k ≠ id) :
    lookupKey (l.filter (fun p => p.1 ≠ id)) k = lookupKey l k := by
  induction l with
  | nil => rfl
  | cons p t ih =>
    simp only [ne_eq, decide_not] at ih ⊢
    by_cases hp : p.1 = id
    · have hpk : ¬ p.1 = k := fun hh => h (hh ▸ hp)
      simp [List.filter_cons, hp, lookupKey, hpk, ih, Ne.symm h]
    · by_cases hk : p.1 = k
      · simp [List.filter_cons, hp, lookupKey, hk, h]
      · simp [List.filter_cons, hp, lookupKey, hk, ih]

theorem lookupKey_map_entry_self {α : Type} (l : List (String × α)) (id : String) (v w : α)
    (f : String × α → α) (h : lookupKey l id = some v) (hw : f (id, v) = w) :
    lookupKey (l.map (fun p => if p.1 = id then (p.1, f p) else p)) id = some w := by
  induction l with
  | nil => simp [lookupKey] at h
  | cons p t ih =>
    obtain ⟨pk, pv⟩ := p
    by_cases hk : pk = id
    · subst hk
      simp only [lookupKey, if_pos rfl] at h
      obtain rfl : pv = v := by exact Option.some.inj h
      simp [lookupKey, hw]
    · simp only [lookupKey, hk, if_false] at h
      simp [lookupKey, hk, ih h]

theorem lookupKey_map_entry_ne {α : Type} (l : List (String × α)) (id k : String)
    (f : String × α → α) (h : k ≠ id) :
    lookupKey (l.map (fun p => if p.1 = id then (p.1, f p) else p)) k = lookupKey l k := by
  induction l with
  | nil => rfl
  | cons p t ih =>
    obtain ⟨pk, pv⟩ := p
    by_cases hp : pk = id
    · have hpk : ¬ pk = k := fun hh => h (hh ▸ hp)
      simp [lookupKey, hp, hpk, ih, Ne.symm h]
    · by_cases hk : pk = k
      · simp [lookupKey, hp, hk, h]
      · simp [lookupKey, hp, hk, ih]

theorem lookupKey_of_contains {α : Type} (l : List (String × α)) (k : String)
    (h : (assocKeys l).contains k = true) : ∃ v, lookupKey l k = some v := by
  induction l with
  | nil => simp [assocKeys] at h
  | cons p t ih =>
    by_cases hk : p.1 = k
    · exact ⟨p.2, by simp [lookupKey, hk]⟩
    · have : (assocKeys t).contains k = true := by
        simp [assocKeys] at h ⊢
        rcases h with h | h
        · exact absurd h.symm hk
        · exact h
      rcases ih this with ⟨v, hv⟩
      exact ⟨v, by simp [lookupKey, hk, hv]⟩

-- ----------------------------
-- C2: effective balance
-- ----------------------------

/-- Claim C2: for every account, `account_effective_balance` equals the
gross balance minus the sum of the expense amounts — an identity of the
account value, hence holding after any sequence of add/remove expense
operations — and the sum over an empty expense list is zero. -/
theorem claim_C2_effective_balance (a : BankAccount) :
    account_effective_balance a
        = a.balance - (a.fixed_expenses.map FixedExpense.amount).sum
      ∧ (a.fixed_expenses = [] → account_monthly_expenses a = 0) := by
  refine ⟨rfl, fun h => ?_⟩
  simp [account_monthly_expenses, h]

/-- Witness for C2 at a concrete account with no expenses. -/
theorem claim_C2_witness :
    account_effective_balance ⟨"Banca Alfa", "Conto Base", 1000, []⟩
        = 1000 - (([] : List FixedExpense).map FixedExpense.amount).sum
      ∧ account_monthly_expenses ⟨"Banca Alfa", "Conto Base", 1000, []⟩ = 0 :=
  ⟨(claim_C2_effective_balance _).1, (claim_C2_effective_balance _).2 rfl⟩

-- ----------------------------
-- C7: dashboard aggregates
-- ----------------------------

theorem totalDebt_addCardExpense (s : Store) (sel : Option String) (name cat : String)
    (amt : Option ℚ) (notes : String) :
    totalDebt (addCardExpense s sel name cat amt notes) = totalDebt s := by
  cases sel with
  | none => rfl
  | some cardId =>
    by_cases hg : cardId = "" ∨ cardId ∉ assocKeys s.cards
    · simp [addCardExpense, hg]
    · cases amt with
      | none => simp [addCardExpense, hg]
      | some v =>
        by_cases hnc : name = "" ∨ cat = ""
        · simp [addCardExpense, hg, hnc]
        · have hc : (addCardExpense s (some cardId) name cat (some v) notes).cards
              = s.cards.map (fun p =>
                  if p.1 = cardId then
                    (p.1, { p.2 with fixed_expenses :=
                      p.2.fixed_expenses ++ [⟨name, cat, v, notes⟩] })
                  else p) := by
            simp [addCardExpense, hg, hnc]
          rw [totalDebt, hc, List.map_map, totalDebt]
          congr 1
          refine List.map_congr_left (fun p _ => ?_)
          by_cases hp : p.1 = cardId <;> simp [hp]

/-- Claim C7: `netWorth` is effective cash minus `totalDebt`,
`totalDebt` sums exactly the cards' due balances (so card fixed
expenses never contribute to it — adding a card expense leaves it
unchanged), and the empty store has zero net worth and zero total
monthly expenses. -/
theorem claim_C7_dashboard (s : Store) :
    netWorth s = totalEffectiveCash s - totalDebt s
      ∧ totalDebt s = (s.cards.map (fun p => p.2.due_balance)).sum
      ∧ (∀ sel name cat amt notes,
          totalDebt (addCardExpense s sel name cat amt notes) = totalDebt s)
      ∧ (s.accounts = [] → s.cards = [] →
          netWorth s = 0 ∧ total_monthly_expenses s = 0) := by
  refine ⟨rfl, rfl, fun sel name cat amt notes => totalDebt_addCardExpense _ _ _ _ _ _,
    fun h1 h2 => ?_⟩
  constructor
  · simp [netWorth, totalEffectiveCash, totalDebt, h1, h2]
  · simp [total_monthly_expenses, h1, h2]

/-- Witness for C7 at the empty startup store. -/
theorem claim_C7_witness :
    netWorth initStore = 0 ∧ total_monthly_expenses initStore = 0 :=
  (claim_C7_dashboard initStore).2.2.2 rfl rfl

-- ----------------------------
-- C5: delete account cascade
-- ----------------------------

/-- Claim C5: deleting an account id present in the store removes it
from the accounts map, leaves every other account untouched, and in the
same operation clears `income.salary_account_id` whenever it equalled
the deleted id — the reference is never left dangling.  (Ids allocated
by the program are never empty, hence the `accId ≠ ""` hypothesis.) -/
theorem claim_C5_delete_account_cascade (s : Store) (accId : String)
    (hne : accId ≠ "") (hmem : accId ∈ assocKeys s.accounts) :
    lookupKey (deleteSelectedAccount s (some accId)).accounts accId = none
      ∧ (∀ k, k ≠ accId →
          lookupKey (deleteSelectedAccount s (some accId)).accounts k = lookupKey s.accounts k)
      ∧ (deleteSelectedAccount s (some accId)).income.salary_account_id ≠ some accId
      ∧ (s.income.salary_account_id = some accId →
          (deleteSelectedAccount s (some accId)).income.salary_account_id = none)
      ∧ (s.income.salary_account_id ≠ some accId →
          (deleteSelectedAccount s (some accId)).income = s.income)
      ∧ (deleteSelectedAccount s (some accId)).income.salary_amount = s.income.salary_amount
      ∧ (deleteSelectedAccount s (some accId)).cards = s.cards := by
  have hd : deleteSelectedAccount s (some accId)
      = { s with
          accounts := s.accounts.filter (fun p => p.1 ≠ accId),
          income :=
            if s.income.salary_account_id = some accId then
              { s.income with salary_account_id := none }
            else s.income } := by
    simp [deleteSelectedAccount, hne, hmem]
  rw [hd]
  refine ⟨lookupKey_filter_self _ _, fun k hk => lookupKey_filter_ne _ _ _ hk, ?_, ?_, ?_, ?_, rfl⟩
  · by_cases hinc : s.income.salary_account_id = some accId <;> simp [hinc]
  · intro hinc; simp [hinc]
  · intro hinc; simp [hinc]
  · by_cases hinc : s.income.salary_account_id = some accId <;> simp [hinc]

/-- Witness for C5 at a concrete store whose salary account is the
deleted one. -/
theorem claim_C5_witness :
    lookupKey (deleteSelectedAccount egStore (some "ACC0001")).accounts "ACC0001" = none
      ∧ (deleteSelectedAccount egStore (some "ACC0001")).income.salary_account_id
          ≠ some "ACC0001" := by
  have h := claim_C5_delete_account_cascade egStore "ACC0001" (by decide) (by decide)
  exact ⟨h.1, h.2.2.1⟩

-- ----------------------------
-- C3: remove expense by index
-- ----------------------------

/-- Counterexample to claim C3 as stated: the remove-expense handlers
guard with `0 <= idx < len(exps)` and have no else branch, so an
out-of-bounds index is silently ignored — the store is unchanged and no
`IndexError` (indeed nothing at all) is reported to the caller, for
accounts and for cards alike. -/
theorem claim_C3_counterexample :
    deleteSelectedAccountExpense egStore (some "ACC0001") (some 5)
        = (egStore, ExpDelOutcome.ignoredOutOfRange)
      ∧ expDelReportsError ExpDelOutcome.ignoredOutOfRange = false
      ∧ deleteSelectedCardExpense egStore (some "CRD0001") (some 5)
          = (egStore, ExpDelOutcome.ignoredOutOfRange) := by
  refine ⟨by decide, rfl, by decide⟩

/-- Claim C3 (amended): for an account (and symmetrically a card)
present in the store, an in-bounds index removes exactly that expense
— the list becomes `take idx ++ drop (idx+1)`, shifting subsequent
indices down — and leaves all other owners unchanged; an out-of-bounds
index is a silent no-op: the store is returned unchanged and no error
is reported.  A missing owner is reported as a warning. -/
theorem claim_C3_remove_expense (s : Store) (accId cardId : String) (idx : Nat)
    (acc : BankAccount) (card : CreditCard)
    (hane : accId ≠ "") (hacc : lookupKey s.accounts accId = some acc)
    (hcne : cardId ≠ "") (hcard : lookupKey s.cards cardId = some card) :
    (idx < acc.fixed_expenses.length →
        (deleteSelectedAccountExpense s (some accId) (some idx)).2 = ExpDelOutcome.removed
          ∧ lookupKey (deleteSelectedAccountExpense s (some accId) (some idx)).1.accounts accId
              = some { acc with fixed_expenses :=
                  acc.fixed_expenses.take idx ++ acc.fixed_expenses.drop (idx + 1) }
          ∧ (∀ k, k ≠ accId →
              lookupKey (deleteSelectedAccountExpense s (some accId) (some idx)).1.accounts k
                = lookupKey s.accounts k))
      ∧ (acc.fixed_expenses.length ≤ idx →
          deleteSelectedAccountExpense s (some accId) (some idx)
            = (s, ExpDelOutcome.ignoredOutOfRange)
            ∧ expDelReportsError ExpDelOutcome.ignoredOutOfRange = false)
      ∧ (idx < card.fixed_expenses.length →
          (deleteSelectedCardExpense s (some cardId) (some idx)).2 = ExpDelOutcome.removed
            ∧ lookupKey (deleteSelectedCardExpense s (some cardId) (some idx)).1.cards cardId
                = some { card with fixed_expenses :=
                    card.fixed_expenses.take idx ++ card.fixed_expenses.drop (idx + 1) }
            ∧ (∀ k, k ≠ cardId →
                lookupKey (deleteSelectedCardExpense s (some cardId) (some idx)).1.cards k
                  = lookupKey s.cards k))
      ∧ (card.fixed_expenses.length ≤ idx →
          deleteSelectedCardExpense s (some cardId) (some idx)
            = (s, ExpDelOutcome.ignoredOutOfRange)
            ∧ expDelReportsError ExpDelOutcome.ignoredOutOfRange = false)
      ∧ (∀ id2, lookupKey s.accounts id2 = none →
          deleteSelectedAccountExpense s (some id2) (some idx) = (s, ExpDelOutcome.noOwner)
            ∧ expDelReportsError ExpDelOutcome.noOwner = true) := by
  have hamem : accId ∈ assocKeys s.accounts := by
    simpa using contains_of_lookupKey _ _ _ hacc
  have hcmem : cardId ∈ assocKeys s.cards := by
    simpa using contains_of_lookupKey _ _ _ hcard
  refine ⟨fun hlt => ?_, fun hge => ?_, fun hlt => ?_, fun hge => ?_, fun id2 h2 => ?_⟩
  · have hd : deleteSelectedAccountExpense s (some accId) (some idx)
        = ({ s with accounts :=
              s.accounts.map (fun p =>
                if p.1 = accId then
                  (p.1, { p.2 with fixed_expenses := p.2.fixed_expenses.eraseIdx idx })
                else p) },
           ExpDelOutcome.removed) := by
      simp [deleteSelectedAccountExpense, hane, hamem, hacc, hlt]
    have houtcome : (deleteSelectedAccountExpense s (some accId) (some idx)).2
        = ExpDelOutcome.removed := by rw [hd]
    have haccs : (deleteSelectedAccountExpense s (some accId) (some idx)).1.accounts
        = s.accounts.map (fun p =>
            if p.1 = accId then
              (p.1, { p.2 with fixed_expenses := p.2.fixed_expenses.eraseIdx idx })
            else p) := by rw [hd]
    refine ⟨houtcome, ?_, fun k hk => ?_⟩
    · rw [haccs]
      exact lookupKey_map_entry_self s.accounts accId acc _
        (fun p => { p.2 with fixed_expenses := p.2.fixed_expenses.eraseIdx idx }) hacc
        (by simp [List.eraseIdx_eq_take_drop_succ])
    · rw [haccs]
      exact lookupKey_map_entry_ne s.accounts accId k
        (fun p => { p.2 with fixed_expenses := p.2.fixed_expenses.eraseIdx idx }) hk
  · have hd : deleteSelectedAccountExpense s (some accId) (some idx)
        = (s, ExpDelOutcome.ignoredOutOfRange) := by
      simp [deleteSelectedAccountExpense, hane, hamem, hacc, Nat.not_lt.mpr hge]
    exact ⟨hd, rfl⟩
  · have hd : deleteSelectedCardExpense s (some cardId) (some idx)
        = ({ s with cards :=
              s.cards.map (fun p =>
                if p.1 = cardId then
                  (p.1, { p.2 with fixed_expenses := p.2.fixed_expenses.eraseIdx idx })
                else p) },
           ExpDelOutcome.removed) := by
      simp [deleteSelectedCardExpense, hcne, hcmem, hcard, hlt]
    have houtcome : (deleteSelectedCardExpense s (some cardId) (some idx)).2
        = ExpDelOutcome.removed := by rw [hd]
    have hcards : (deleteSelectedCardExpense s (some cardId) (some idx)).1.cards
        = s.cards.map (fun p =>
            if p.1 = cardId then
              (p.1, { p.2 with fixed_expenses := p.2.fixed_expenses.eraseIdx idx })
            else p) := by rw [hd]
    refine ⟨houtcome, ?_, fun k hk => ?_⟩
    · rw [hcards]
      exact lookupKey_map_entry_self s.cards cardId card _
        (fun p => { p.2 with fixed_expenses := p.2.fixed_expenses.eraseIdx idx }) hcard
        (by simp [List.eraseIdx_eq_take_drop_succ])
    · rw [hcards]
      exact lookupKey_map_entry_ne s.cards cardId k
        (fun p => { p.2 with fixed_expenses := p.2.fixed_expenses.eraseIdx idx }) hk
  · have hd : deleteSelectedCardExpense s (some cardId) (some idx)
        = (s, ExpDelOutcome.ignoredOutOfRange) := by
      simp [deleteSelectedCardExpense, hcne, hcmem, hcard, Nat.not_lt.mpr hge]
    exact ⟨hd, rfl⟩
  · have h2m : id2 ∉ assocKeys s.accounts := by
      simpa using not_contains_of_lookupKey_none _ _ h2
    refine ⟨?_, rfl⟩
    by_cases h2e : id2 = ""
    · simp [deleteSelectedAccountExpense, h2e]
    · simp [deleteSelectedAccountExpense, h2e, h2m]

/-- Witness for C3 (amended) at the concrete store: in-bounds removal
of the only expense empties the account's list. -/
theorem claim_C3_witness :
    (deleteSelectedAccountExpense egStore (some "ACC0001") (some 0)).2 = ExpDelOutcome.removed
      ∧ lookupKey (deleteSelectedAccountExpense egStore (some "ACC0001") (some 0)).1.accounts
          "ACC0001" = some ⟨"Banca Alfa", "Conto Base", 0, [].take 0 ++ [egExpense].drop 1⟩ := by
  have h := claim_C3_remove_expense egStore "ACC0001" "CRD0001" 0
    ⟨"Banca Alfa", "Conto Base", 0, [egExpense]⟩ ⟨"Visa", 0, [egExpense]⟩
    (by decide) (by decide) (by decide) (by decide)
  have h1 := h.1 (by decide)
  exact ⟨h1.1, by simpa using h1.2.1⟩

-- ----------------------------
-- Category-list membership lemmas
-- ----------------------------

theorem lookupLower_mem (l : List String) (k c : String) (h : lookupLower l k = some c) :
    c ∈ l ∧ lowerStr c = k := by
  induction l with
  | nil => simp [lookupLower] at h
  | cons a t ih =>
    simp only [lookupLower] at h
    cases ht : lookupLower t k with
    | some v =>
      rw [ht] at h
      obtain rfl : v = c := Option.some.inj h
      exact ⟨List.mem_cons_of_mem _ (ih ht).1, (ih ht).2⟩
    | none =>
      rw [ht] at h
      by_cases ha : lowerStr a = k
      · rw [if_pos ha] at h
        obtain rfl : a = c := Option.some.inj h
        exact ⟨List.mem_cons_self _ _, ha⟩
      · rw [if_neg ha] at h
        exact absurd h (by simp)

theorem mem_insertLe (a x : String) (l : List String) :
    x ∈ insertLe a l ↔ x = a ∨ x ∈ l := by
  induction l with
  | nil => simp [insertLe]
  | cons b t ih =>
    by_cases hb : lowerLe b a
    · simp only [insertLe, if_pos hb, List.mem_cons, ih]
      tauto
    · simp [insertLe, if_neg hb, List.mem_cons]

theorem mem_foldl_insertLe (x : String) (l acc : List String) :
    x ∈ l.foldl (fun acc a => insertLe a acc) acc ↔ x ∈ acc ∨ x ∈ l := by
  induction l generalizing acc with
  | nil => simp
  | cons a t ih =>
    simp only [List.foldl_cons, ih, mem_insertLe, List.mem_cons]
    tauto

theorem mem_sortLower (x : String) (l : List String) : x ∈ sortLower l ↔ x ∈ l := by
  simp [sortLower, mem_foldl_insertLe]

theorem mem_of_mem_normalize (l : List String) (x : String)
    (h : x ∈ normalizeCategoriesOrder l) : x ∈ l := by
  simp only [normalizeCategoriesOrder, List.mem_append] at h
  rcases h with h | h
  · simp only [baseExact, List.mem_filterMap] at h
    obtain ⟨d, _, hd⟩ := h
    exact (lookupLower_mem _ _ _ hd).1
  · rw [mem_sortLower] at h
    exact List.mem_of_mem_filter h

-- ----------------------------
-- C6: delete category
-- ----------------------------

/-- Claim C6: `delete_category` on a (stripped, non-empty) name fails
with the not-found report when the name is absent, with the
last-category report when it is the sole remaining category, and with
the in-use report — carrying the formatted list of blocking owners —
when any expense references it by exact string match; otherwise it
removes the name, re-normalizes the order, and the resulting category
list no longer contains it.  The blocking list is empty exactly when no
account or card expense references the name. -/
theorem claim_C6_delete_category (s : Store) (cat : String)
    (hstrip : strip cat = cat) (hne : cat ≠ "") :
    (cat ∉ s.categories → deleteCategory s cat = (s, CatDelOutcome.notFound))
      ∧ (cat ∈ s.categories → s.categories.length = 1 →
          deleteCategory s cat = (s, CatDelOutcome.lastCategory))
      ∧ (cat ∈ s.categories → 2 ≤ s.categories.length → categoryBlockers s cat ≠ [] →
          deleteCategory s cat = (s, CatDelOutcome.inUse (categoryBlockers s cat)))
      ∧ (cat ∈ s.categories → 2 ≤ s.categories.length → categoryBlockers s cat = [] →
          (deleteCategory s cat).2 = CatDelOutcome.deleted
            ∧ cat ∉ (deleteCategory s cat).1.categories
            ∧ (deleteCategory s cat).1.categories
                = normalizeCategoriesOrder (s.categories.filter (· ≠ cat)))
      ∧ (categoryBlockers s cat = []
          ↔ (∀ p ∈ s.accounts, ∀ e ∈ p.2.fixed_expenses, e.category ≠ cat)
            ∧ (∀ p ∈ s.cards, ∀ e ∈ p.2.fixed_expenses, e.category ≠ cat)) := by
  refine ⟨fun habs => ?_, fun hmem hone => ?_, fun hmem h2 hu => ?_, fun hmem h2 hu => ?_, ?_⟩
  · simp [deleteCategory, hstrip, hne, habs]
  · simp [deleteCategory, hstrip, hne, hmem, hone]
  · have hle : ¬ s.categories.length ≤ 1 := by omega
    simp [deleteCategory, hstrip, hne, hmem, hle, hu]
  · have hle : ¬ s.categories.length ≤ 1 := by omega
    have hres : deleteCategory s cat
        = ({ s with categories := normalizeCategoriesOrder (s.categories.filter (· ≠ cat)) },
           CatDelOutcome.deleted) := by
      simp [deleteCategory, hstrip, hne, hmem, hle, hu]
    refine ⟨by rw [hres], fun hc => ?_, by rw [hres]⟩
    rw [hres] at hc
    have := mem_of_mem_normalize _ _ hc
    simp at this
  · constructor
    · intro h
      have h2 : (∀ (a : String) (b : BankAccount), (a, b) ∈ s.accounts →
            ∀ x ∈ b.fixed_expenses, ¬ x.category = cat)
          ∧ (∀ (a : String) (b : CreditCard), (a, b) ∈ s.cards →
            ∀ x ∈ b.fixed_expenses, ¬ x.category = cat) := by
        simpa [categoryBlockers] using h
      exact ⟨fun p hp e he => h2.1 p.1 p.2 hp e he, fun p hp e he => h2.2 p.1 p.2 hp e he⟩
    · intro h
      have h2 : (∀ (a : String) (b : BankAccount), (a, b) ∈ s.accounts →
            ∀ x ∈ b.fixed_expenses, ¬ x.category = cat)
          ∧ (∀ (a : String) (b : CreditCard), (a, b) ∈ s.cards →
            ∀ x ∈ b.fixed_expenses, ¬ x.category = cat) :=
        ⟨fun a b hab e he => h.1 (a, b) hab e he, fun a b hab e he => h.2 (a, b) hab e he⟩
      simpa [categoryBlockers] using h2

/-- Witness for C6: deleting the unused default category `Viaggi` from
the startup store succeeds and removes it. -/
theorem claim_C6_witness :
    (deleteCategory initStore "Viaggi").2 = CatDelOutcome.deleted
      ∧ "Viaggi" ∉ (deleteCategory initStore "Viaggi").1.categories := by
  have h := claim_C6_delete_category initStore "Viaggi" (by decide) (by decide)
  have h4 := h.2.2.2.1 (by decide) (by decide) rfl
  exact ⟨h4.1, h4.2.1⟩

-- ----------------------------
-- Decimal digit lemmas
-- ----------------------------

theorem digitChar_toNat : ∀ d, d < 10 → (digitChar d).toNat = 48 + d := by decide

theorem digitChar_isDigit : ∀ d, d < 10 → (digitChar d).isDigit = true := by decide

theorem digitsVal_snoc (l : List Char) (c : Char) :
    digitsVal (l ++ [c]) = 10 * digitsVal l + (c.toNat - 48) := by
  simp [digitsVal, List.foldl_append]

theorem digitsVal_natDigitsAux : ∀ fuel n, n < fuel → digitsVal (natDigitsAux fuel n) = n := by
  intro fuel
  induction fuel with
  | zero => intro n h; omega
  | succ f ih =>
    intro n h
    by_cases h10 : n < 10
    · have hc := digitChar_toNat n h10
      simp [natDigitsAux, h10, digitsVal, hc]
    · have hlt : n / 10 < n := Nat.div_lt_self (by omega) (by omega)
      have hd : n / 10 < f := by omega
      rw [natDigitsAux, if_neg h10, digitsVal_snoc, ih _ hd,
        digitChar_toNat _ (Nat.mod_lt _ (by omega))]
      omega

theorem digitsVal_natDigits (n : Nat) : digitsVal (natDigits n) = n :=
  digitsVal_natDigitsAux (n + 1) n (Nat.lt_succ_self n)

theorem isDigit_of_mem_natDigitsAux :
    ∀ fuel n c, c ∈ natDigitsAux fuel n → c.isDigit = true := by
  intro fuel
  induction fuel with
  | zero => intro n c h; simp [natDigitsAux] at h
  | succ f ih =>
    intro n c h
    by_cases h10 : n < 10
    · rw [natDigitsAux, if_pos h10] at h
      simp only [List.mem_singleton] at h
      exact h ▸ digitChar_isDigit n h10
    · rw [natDigitsAux, if_neg h10] at h
      rcases List.mem_append.mp h with h | h
      · exact ih _ _ h
      · simp only [List.mem_singleton] at h
        exact h ▸ digitChar_isDigit _ (Nat.mod_lt _ (by omega))

theorem isDigit_of_mem_natDigits (n : Nat) (c : Char) (h : c ∈ natDigits n) :
    c.isDigit = true :=
  isDigit_of_mem_natDigitsAux _ _ _ h

theorem foldl_digit_zeros : ∀ k, (List.replicate k '0').foldl
    (fun a c => 10 * a + (c.toNat - 48)) 0 = 0 := by
  intro k
  induction k with
  | zero => rfl
  | succ m ih => simpa [List.replicate_succ] using ih

theorem digitsVal_padNum (i : Nat) : digitsVal (padNum i) = i := by
  rw [padNum, digitsVal, List.foldl_append]
  rw [show (List.replicate (4 - (natDigits i).length) '0').foldl
      (fun a c => 10 * a + (c.toNat - 48)) 0 = 0 from foldl_digit_zeros _]
  exact digitsVal_natDigits i

theorem isDigit_of_mem_padNum (i : Nat) (c : Char) (h : c ∈ padNum i) : c.isDigit = true := by
  rcases List.mem_append.mp h with h | h
  · have := List.eq_of_mem_replicate h
    subst this
    decide
  · exact isDigit_of_mem_natDigits _ _ h

theorem candidateId_inj (pre : String) : Function.Injective (candidateId pre) := by
  intro i j h
  have hdata : pre.data ++ padNum i = pre.data ++ padNum j := by
    have := congrArg String.data h
    simpa [candidateId, String.data_append] using this
  have hpad : padNum i = padNum j := List.append_cancel_left hdata
  have := congrArg digitsVal hpad
  simpa [digitsVal_padNum] using this

-- ----------------------------
-- C4: identifier allocation
-- ----------------------------

theorem makeIdGo_spec (pre : String) (existing : List String) :
    ∀ fuel i, (∃ j, i ≤ j ∧ j < i + fuel ∧ candidateId pre j ∉ existing) →
    ∃ k, i ≤ k ∧ makeIdGo pre existing fuel i = candidateId pre k
      ∧ candidateId pre k ∉ existing
      ∧ ∀ j, i ≤ j → j < k → candidateId pre j ∈ existing := by
  intro fuel
  induction fuel with
  | zero =>
    intro i h
    obtain ⟨j, hj1, hj2, _⟩ := h
    omega
  | succ f ih =>
    intro i h
    obtain ⟨j, hj1, hj2, hj3⟩ := h
    by_cases hc : candidateId pre i ∈ existing
    · have hji : i + 1 ≤ j := by
        rcases Nat.eq_or_lt_of_le hj1 with rfl | hlt
        · exact absurd hc hj3
        · omega
      obtain ⟨k, hk1, hk2, hk3, hk4⟩ := ih (i + 1) ⟨j, hji, by omega, hj3⟩
      refine ⟨k, by omega, ?_, hk3, fun j2 hj2a hj2b => ?_⟩
      · rw [makeIdGo, if_pos hc]
        exact hk2
      · by_cases hji2 : j2 = i
        · exact hji2 ▸ hc
        · exact hk4 j2 (by omega) hj2b
    · refine ⟨i, Nat.le_refl _, ?_, hc, fun j2 h1 h2 => ?_⟩
      · rw [makeIdGo, if_neg hc]
      · omega

theorem exists_free_candidate (pre : String) (existing : List String) :
    ∃ j, 1 ≤ j ∧ j < 1 + (existing.length + 1) ∧ candidateId pre j ∉ existing := by
  by_contra hno
  push_neg at hno
  have hsub : ∀ x ∈ (List.range' 1 (existing.length + 1)).map (candidateId pre),
      x ∈ existing := by
    intro x hx
    obtain ⟨j, hj, rfl⟩ := List.mem_map.mp hx
    obtain ⟨hj1, hj2⟩ := List.mem_range'_1.mp hj
    exact hno j hj1 (by omega)
  have hnodup : ((List.range' 1 (existing.length + 1)).map (candidateId pre)).Nodup :=
    (List.nodup_range' 1 (existing.length + 1) 1 Nat.one_pos).map (candidateId_inj pre)
  have h1 : ((List.range' 1 (existing.length + 1)).map (candidateId pre)).toFinset.card
      = existing.length + 1 := by
    rw [List.toFinset_card_of_nodup hnodup]
    simp
  have h2 : ((List.range' 1 (existing.length + 1)).map (candidateId pre)).toFinset
      ⊆ existing.toFinset := by
    intro x hx
    rw [List.mem_toFinset] at hx ⊢
    exact hsub x hx
  have h3 := Finset.card_le_card h2
  have h4 := existing.toFinset_card_le
  omega

theorem digitsVal_foldl_from (a : Nat) (l : List Char) :
    l.foldl (fun a c => 10 * a + (c.toNat - 48)) a = a * 10 ^ l.length + digitsVal l := by
  induction l generalizing a with
  | nil => simp [digitsVal]
  | cons c t ih =>
    have hc : digitsVal (c :: t) = (c.toNat - 48) * 10 ^ t.length + digitsVal t := by
      rw [digitsVal]
      simpa using ih (c.toNat - 48)
    rw [List.foldl_cons, ih, hc, List.length_cons]
    ring

theorem digitsVal_cons (c : Char) (t : List Char) :
    digitsVal (c :: t) = (c.toNat - 48) * 10 ^ t.length + digitsVal t := by
  rw [digitsVal]
  simpa using digitsVal_foldl_from (c.toNat - 48) t

theorem digit_toNat_sub_le (c : Char) (hc : c.isDigit = true) : c.toNat - 48 ≤ 9 := by
  simp [Char.isDigit] at hc
  obtain ⟨h1, h2⟩ := hc
  have h2n : c.toNat ≤ 57 := h2
  omega

theorem digitsVal_lt (l : List Char) (h : ∀ c ∈ l, c.isDigit = true) :
    digitsVal l < 10 ^ l.length := by
  induction l with
  | nil => simp [digitsVal]
  | cons c t ih =>
    have hc9 := digit_toNat_sub_le c (h c (List.mem_cons_self _ _))
    have ht := ih (fun x hx => h x (List.mem_cons_of_mem _ hx))
    rw [digitsVal_cons, List.length_cons]
    calc (c.toNat - 48) * 10 ^ t.length + digitsVal t
        < (c.toNat - 48) * 10 ^ t.length + 10 ^ t.length := by omega
      _ = (c.toNat - 48 + 1) * 10 ^ t.length := by ring
      _ ≤ 10 * 10 ^ t.length := Nat.mul_le_mul_right _ (by omega)
      _ = 10 ^ (t.length + 1) := by ring

theorem charListLe_append_left :
    ∀ (p a b : List Char), charListLe (p ++ a) (p ++ b) = charListLe a b := by
  intro p a b
  induction p with
  | nil => rfl
  | cons c t ih => simp [charListLe, Nat.lt_irrefl, ih]

theorem charListLe_of_digitsVal_le :
    ∀ (a b : List Char), a.length = b.length →
      (∀ c ∈ a, c.isDigit = true) → (∀ c ∈ b, c.isDigit = true) →
      digitsVal a ≤ digitsVal b → charListLe a b = true := by
  intro a
  induction a with
  | nil => intro b _ _ _ _; rfl
  | cons x as ih =>
    intro b hlen hda hdb hv
    cases b with
    | nil => simp at hlen
    | cons y bs =>
      have hlen2 : as.length = bs.length := by simpa using hlen
      rw [digitsVal_cons, digitsVal_cons, hlen2] at hv
      by_cases hxy : x.toNat < y.toNat
      · simp [charListLe, hxy]
      · by_cases hyx : y.toNat < x.toNat
        · exfalso
          have hva := digitsVal_lt as (fun c hc => hda c (List.mem_cons_of_mem _ hc))
          have hvb := digitsVal_lt bs (fun c hc => hdb c (List.mem_cons_of_mem _ hc))
          rw [hlen2] at hva
          have hx48 : 48 ≤ x.toNat := by
            have := hda x (List.mem_cons_self _ _)
            simp [Char.isDigit] at this
            exact this.1
          have hy48 : 48 ≤ y.toNat := by
            have := hdb y (List.mem_cons_self _ _)
            simp [Char.isDigit] at this
            exact this.1
          have h1 : y.toNat - 48 + 1 ≤ x.toNat - 48 := by omega
          have h2 : (y.toNat - 48 + 1) * 10 ^ bs.length ≤ (x.toNat - 48) * 10 ^ bs.length :=
            Nat.mul_le_mul_right _ h1
          have h3 : (y.toNat - 48 + 1) * 10 ^ bs.length
              = (y.toNat - 48) * 10 ^ bs.length + 10 ^ bs.length := by ring
          omega
        · have heq : x.toNat - 48 = y.toNat - 48 := by
            have hx48 : 48 ≤ x.toNat := by
              have := hda x (List.mem_cons_self _ _)
              simp [Char.isDigit] at this
              exact this.1
            omega
          rw [heq] at hv
          simp only [charListLe, if_neg hxy, if_neg hyx]
          exact ih bs hlen2 (fun c hc => hda c (List.mem_cons_of_mem _ hc))
            (fun c hc => hdb c (List.mem_cons_of_mem _ hc)) (by omega)

theorem natDigitsAux_length_le :
    ∀ fuel n k, n < fuel → n < 10 ^ k → 1 ≤ k → (natDigitsAux fuel n).length ≤ k := by
  intro fuel
  induction fuel with
  | zero => intro n k h _ _; omega
  | succ f ih =>
    intro n k hf hk hk1
    by_cases h10 : n < 10
    · simp [natDigitsAux, h10]
      omega
    · rw [natDigitsAux, if_neg h10]
      simp only [List.length_append, List.length_singleton]
      have hk2 : 2 ≤ k := by
        by_contra hcon
        have hke : k = 1 := by omega
        subst hke
        simp at hk
        omega
      have hkk : 10 ^ k = 10 ^ (k - 1) * 10 := by
        rw [← pow_succ]
        congr 1
        omega
      have hdiv : n / 10 < 10 ^ (k - 1) := by
        rw [Nat.div_lt_iff_lt_mul (by omega : 0 < 10)]
        omega
      have hf2 : n / 10 < f := by
        have := Nat.div_lt_self (by omega : 0 < n) (by omega : 1 < 10)
        omega
      have := ih (n / 10) (k - 1) hf2 hdiv (by omega)
      omega

theorem padNum_length (i : Nat) (h : i ≤ 9999) : (padNum i).length = 4 := by
  have hlen : (natDigits i).length ≤ 4 :=
    natDigitsAux_length_le (i + 1) i 4 (Nat.lt_succ_self i) (by omega) (by omega)
  simp [padNum]
  omega

theorem candidateId_data (pre : String) (i : Nat) :
    (candidateId pre i).data = pre.data ++ padNum i := by
  simp [candidateId, String.data_append]

/-- Claim C4: the identifier allocator is a pure function of the prefix
and the existing key set (hence deterministic); it returns the candidate
`f"{pre}{k:04d}"` for the least counter `k ≥ 1` whose candidate is
unused — every smaller counter's candidate is already present — so the
result is never a member of the existing set, and among the four-digit
zero-padded candidates (counters up to 9999) it is lexicographically
least among the unused ones; after deleting `ACC0002` from
`{ACC0001, ACC0003}` the next allocation returns `ACC0002`. -/
theorem claim_C4_make_id :
    (∀ pre existing, ∃ k, 1 ≤ k
        ∧ makeId pre existing = candidateId pre k
        ∧ makeId pre existing ∉ existing
        ∧ (∀ j, 1 ≤ j → j < k → candidateId pre j ∈ existing)
        ∧ (∀ j, 1 ≤ j → candidateId pre j ∉ existing → k ≤ j)
        ∧ (∀ j, 1 ≤ j → j ≤ 9999 → k ≤ 9999 → candidateId pre j ∉ existing →
            charListLe (candidateId pre k).data (candidateId pre j).data = true))
      ∧ makeId "ACC" ["ACC0001", "ACC0003"] = "ACC0002" := by
  constructor
  · intro pre existing
    obtain ⟨k, hk1, hk2, hk3, hk4⟩ :=
      makeIdGo_spec pre existing (existing.length + 1) 1 (exists_free_candidate pre existing)
    have hmk : makeId pre existing = candidateId pre k := hk2
    have hmin : ∀ j, 1 ≤ j → candidateId pre j ∉ existing → k ≤ j := by
      intro j hj hnj
      by_contra hlt
      exact hnj (hk4 j hj (by omega))
    refine ⟨k, hk1, hmk, by rw [hmk]; exact hk3, hk4, hmin, ?_⟩
    intro j hj hj9 hk9 hnj
    have hkj := hmin j hj hnj
    rw [candidateId_data, candidateId_data, charListLe_append_left]
    refine charListLe_of_digitsVal_le _ _ ?_ ?_ ?_ ?_
    · rw [padNum_length k hk9, padNum_length j hj9]
    · exact fun c hc => isDigit_of_mem_padNum _ _ hc
    · exact fun c hc => isDigit_of_mem_padNum _ _ hc
    · rw [digitsVal_padNum, digitsVal_padNum]
      exact hkj
  · decide

/-- Witness for C4: the allocator applied to `{ACC0001, ACC0003}` does
not return a used id. -/
theorem claim_C4_witness :
    makeId "ACC" ["ACC0001", "ACC0003"] ∉ (["ACC0001", "ACC0003"] : List String) := by
  obtain ⟨k, _, _, h3, _⟩ := claim_C4_make_id.1 "ACC" ["ACC0001", "ACC0003"]
  exact h3

-- ----------------------------
-- C9: defensive load
-- ----------------------------

/-- Claim C9: when no persisted document exists or it is unparseable
(`Storage.load` then returns the empty document) the startup state is
the empty store with exactly the canonical default category set, and no
failure is raised; the same holds for any falsy document and for any
document the try-block cannot reconstruct; when the document is
parseable, missing fields default — in particular an account object
without a `balance` key reconstructs with balance `0`. -/
theorem claim_C9_load_defaults :
    loadState (storageLoad none) = initStore
      ∧ loadState Json.null = initStore
      ∧ initStore.accounts = [] ∧ initStore.cards = []
      ∧ initStore.categories = DEFAULT_CATEGORIES
      ∧ (∀ kvs a, getField kvs "balance" = none → parseAccountObj (Json.obj kvs) = some a →
          a.balance = 0)
      ∧ (∀ raw, parseState raw = none → loadState raw = initStore) := by
  refine ⟨rfl, rfl, rfl, rfl, rfl, fun kvs a h hp => ?_, fun raw h => ?_⟩
  · simp only [parseAccountObj] at hp
    obtain ⟨exps, h1, hp⟩ := Option.bind_eq_some.mp hp
    obtain ⟨bn, h2, hp⟩ := Option.bind_eq_some.mp hp
    obtain ⟨an, h3, hp⟩ := Option.bind_eq_some.mp hp
    obtain ⟨b, h4, hp⟩ := Option.bind_eq_some.mp hp
    rw [h] at h4
    have hb : b = 0 := by simpa [numOrZero] using h4.symm
    obtain rfl : _ = a := Option.some.inj hp
    exact hb
  · by_cases hf : jsonFalsy raw = true
    · simp [loadState, hf]
    · simp [loadState, hf, h]

/-- Witness for C9 at a concrete account object lacking `balance`. -/
theorem claim_C9_witness :
    ((⟨"Banca", "Conto", 0, []⟩ : BankAccount)).balance = 0 := by
  have h := claim_C9_load_defaults.2.2.2.2.2.1
    [("bank_name", Json.str "Banca"), ("account_name", Json.str "Conto")]
    ⟨"Banca", "Conto", 0, []⟩ rfl rfl
  exact h

-- ----------------------------
-- C10: dangling salary reference survives load
-- ----------------------------

/-- Claim C10 (implicit): `_load_state` takes the saved
`salary_account_id` as-is and never checks it against the loaded
accounts: whenever the try-block reconstructs a store whose salary
reference is an id with no account entry, the loaded store retains the
dangling reference. -/
theorem claim_C10_dangling_ref (kvs : List (String × Json)) (st : Store) (id : String)
    (hp : parseState (Json.obj kvs) = some st)
    (hid : st.income.salary_account_id = some id)
    (habs : lookupKey st.accounts id = none) :
    (loadState (Json.obj kvs)).income.salary_account_id = some id
      ∧ lookupKey (loadState (Json.obj kvs)).accounts id = none := by
  have hfalsy : jsonFalsy (Json.obj kvs) = false := by
    cases kvs with
    | cons _ _ => rfl
    | nil =>
      exfalso
      have hs0 : parseState (Json.obj ([] : List (String × Json)))
          = some (Store.mk [] [] ⟨0, none⟩ (migrateCats DEFAULT_CATEGORIES) none) := rfl
      have hst : st = Store.mk [] [] ⟨0, none⟩ (migrateCats DEFAULT_CATEGORIES) none :=
        Option.some.inj (hp.symm.trans hs0)
      rw [hst] at hid
      simp at hid
  have hload : loadState (Json.obj kvs) = st := by
    simp [loadState, hfalsy, hp]
  rw [hload]
  exact ⟨hid, habs⟩

/-- Witness for C10: a document whose income references `ACC0099` while
containing no accounts loads with the reference intact. -/
theorem claim_C10_witness :
    (loadState (Json.obj [("income", Json.obj [("salary_amount", Json.num 0),
        ("salary_account_id", Json.str "ACC0099")])])).income.salary_account_id
      = some "ACC0099" := by
  have h := claim_C10_dangling_ref
    [("income", Json.obj [("salary_amount", Json.num 0),
      ("salary_account_id", Json.str "ACC0099")])]
    { accounts := [], cards := [], income := ⟨0, some "ACC0099"⟩,
      categories := migrateCats DEFAULT_CATEGORIES, last_saved_at := none }
    "ACC0099" rfl rfl rfl
  exact h.1

-- ----------------------------
-- Category normalization: ordering lemmas
-- ----------------------------

theorem charListLe_total (x y : List Char) (h : charListLe x y = false) :
    charListLe y x = true := by
  induction x generalizing y with
  | nil => simp [charListLe] at h
  | cons a as ih =>
    cases y with
    | nil => rfl
    | cons b bs =>
      by_cases h1 : a.toNat < b.toNat
      · simp [charListLe, h1] at h
      · by_cases h2 : b.toNat < a.toNat
        · simp [charListLe, h2]
        · rw [charListLe, if_neg h1, if_neg h2] at h
          rw [charListLe, if_neg h2, if_neg h1]
          exact ih bs h

theorem charListLe_trans (x : List Char) :
    ∀ y z, charListLe x y = true → charListLe y z = true → charListLe x z = true := by
  induction x with
  | nil => intro y z _ _; rfl
  | cons a as ih =>
    intro y z hxy hyz
    cases y with
    | nil => simp [charListLe] at hxy
    | cons b bs =>
      cases z with
      | nil => simp [charListLe] at hyz
      | cons c cs =>
        rw [charListLe] at hxy hyz ⊢
        by_cases hac : a.toNat < c.toNat
        · rw [if_pos hac]
        · have hca : ¬ c.toNat < a.toNat := by
            by_cases hab : a.toNat < b.toNat
            · by_cases hbc : b.toNat < c.toNat
              · omega
              · by_cases hcb : c.toNat < b.toNat
                · rw [if_neg hbc, if_pos hcb] at hyz
                  exact absurd hyz (by simp)
                · omega
            · by_cases hba : b.toNat < a.toNat
              · rw [if_pos hba] at hxy
                rw [if_neg hab] at hxy
                exact absurd hxy (by simp)
              · by_cases hbc : b.toNat < c.toNat
                · omega
                · by_cases hcb : c.toNat < b.toNat
                  · rw [if_neg hbc, if_pos hcb] at hyz
                    exact absurd hyz (by simp)
                  · omega
          have hab : ¬ a.toNat < b.toNat := by
            by_contra hh
            by_cases hbc : b.toNat < c.toNat
            · omega
            · by_cases hcb : c.toNat < b.toNat
              · rw [if_neg hbc, if_pos hcb] at hyz
                exact absurd hyz (by simp)
              · omega
          have hba : ¬ b.toNat < a.toNat := by
            by_contra hh
            rw [if_neg hab, if_pos hh] at hxy
            exact absurd hxy (by simp)
          have hbc : ¬ b.toNat < c.toNat := by
            by_contra hh
            omega
          have hcb : ¬ c.toNat < b.toNat := by
            by_contra hh
            rw [if_neg hbc, if_pos hh] at hyz
            exact absurd hyz (by simp)
          rw [if_neg hab, if_neg hba] at hxy
          rw [if_neg hbc, if_neg hcb] at hyz
          rw [if_neg hac, if_neg hca]
          exact ih bs cs hxy hyz

theorem lowerLe_total (a b : String) (h : lowerLe a b = false) : lowerLe b a = true :=
  charListLe_total _ _ h

theorem lowerLe_trans (a b c : String) (h1 : lowerLe a b = true) (h2 : lowerLe b c = true) :
    lowerLe a c = true :=
  charListLe_trans _ _ _ h1 h2

theorem insertLe_perm (a : String) (l : List String) : (insertLe a l).Perm (a :: l) := by
  induction l with
  | nil => rfl
  | cons b t ih =>
    by_cases hb : lowerLe b a
    · rw [insertLe, if_pos hb]
      exact (ih.cons b).trans (List.Perm.swap a b t)
    · rw [insertLe, if_neg hb]

theorem foldl_insertLe_perm (l : List String) :
    ∀ acc, (l.foldl (fun acc a => insertLe a acc) acc).Perm (acc ++ l) := by
  induction l with
  | nil => intro acc; simp
  | cons a t ih =>
    intro acc
    have p1 : ((a :: t).foldl (fun acc a => insertLe a acc) acc).Perm (insertLe a acc ++ t) :=
      ih (insertLe a acc)
    have p2 : (insertLe a acc ++ t).Perm ((a :: acc) ++ t) :=
      (insertLe_perm a acc).append_right t
    have p3 : ((a :: acc) ++ t).Perm (acc ++ a :: t) := List.perm_middle.symm
    exact (p1.trans p2).trans p3

theorem sortLower_perm (l : List String) : (sortLower l).Perm l := by
  simpa using foldl_insertLe_perm l []

theorem insertLe_pairwise (a : String) (l : List String)
    (h : l.Pairwise (fun x y => lowerLe x y = true)) :
    (insertLe a l).Pairwise (fun x y => lowerLe x y = true) := by
  induction l with
  | nil => simp [insertLe]
  | cons b t ih =>
    rcases List.pairwise_cons.mp h with ⟨hb, ht⟩
    by_cases hba : lowerLe b a
    · rw [insertLe, if_pos hba]
      refine List.pairwise_cons.mpr ⟨?_, ih ht⟩
      intro x hx
      rcases (mem_insertLe a x t).mp hx with rfl | hx
      · exact hba
      · exact hb x hx
    · rw [insertLe, if_neg hba]
      have hab : lowerLe a b = true := lowerLe_total b a (by simpa using hba)
      refine List.pairwise_cons.mpr ⟨?_, h⟩
      intro x hx
      rcases List.mem_cons.mp hx with rfl | hx
      · exact hab
      · exact lowerLe_trans a b x hab (hb x hx)

theorem sortLower_pairwise (l : List String) :
    (sortLower l).Pairwise (fun x y => lowerLe x y = true) := by
  have hgen : ∀ (t acc : List String), acc.Pairwise (fun x y => lowerLe x y = true) →
      (t.foldl (fun acc a => insertLe a acc) acc).Pairwise (fun x y => lowerLe x y = true) := by
    intro t
    induction t with
    | nil => intro acc h; exact h
    | cons a t2 ih =>
      intro acc h
      exact ih _ (insertLe_pairwise a acc h)
  exact hgen l [] (by simp)

theorem insertLe_append_of_all_le (a : String) (l : List String)
    (h : ∀ b ∈ l, lowerLe b a = true) : insertLe a l = l ++ [a] := by
  induction l with
  | nil => rfl
  | cons b t ih =>
    rw [insertLe, if_pos (h b (List.mem_cons_self _ _)),
      ih (fun x hx => h x (List.mem_cons_of_mem _ hx))]
    rfl

theorem foldl_insertLe_of_pairwise (l : List String) :
    ∀ acc, (acc ++ l).Pairwise (fun x y => lowerLe x y = true) →
      l.foldl (fun acc a => insertLe a acc) acc = acc ++ l := by
  induction l with
  | nil => intro acc _; simp
  | cons a t ih =>
    intro acc h
    have hle : ∀ b ∈ acc, lowerLe b a = true := by
      intro b hb
      have := (List.pairwise_append.mp h).2.2
      exact this b hb a (List.mem_cons_self _ _)
    have hstep : insertLe a acc = acc ++ [a] := insertLe_append_of_all_le a acc hle
    have hre : (acc ++ [a]) ++ t = acc ++ a :: t := by simp
    calc (a :: t).foldl (fun acc a => insertLe a acc) acc
        = t.foldl (fun acc a => insertLe a acc) (insertLe a acc) := rfl
      _ = t.foldl (fun acc a => insertLe a acc) (acc ++ [a]) := by rw [hstep]
      _ = (acc ++ [a]) ++ t := ih _ (by rw [hre]; exact h)
      _ = acc ++ a :: t := hre

theorem sortLower_eq_self_of_pairwise (l : List String)
    (h : l.Pairwise (fun x y => lowerLe x y = true)) : sortLower l = l := by
  simpa using foldl_insertLe_of_pairwise l [] (by simpa using h)

theorem sortLower_idem (l : List String) : sortLower (sortLower l) = sortLower l :=
  sortLower_eq_self_of_pairwise _ (sortLower_pairwise l)

-- ----------------------------
-- Category normalization: lookup and idempotence lemmas
-- ----------------------------

theorem lookupLower_eq_none_iff (l : List String) (k : String) :
    lookupLower l k = none ↔ ∀ c ∈ l, lowerStr c ≠ k := by
  induction l with
  | nil => simp [lookupLower]
  | cons a t ih =>
    rw [lookupLower]
    cases ht : lookupLower t k with
    | some v =>
      simp only [ht]
      constructor
      · intro h
        exact absurd h (by simp)
      · intro h
        have := (ih.mpr (fun c hc => h c (List.mem_cons_of_mem _ hc)))
        rw [this] at ht
        exact absurd ht (by simp)
    | none =>
      simp only [ht]
      by_cases ha : lowerStr a = k
      · simp only [if_pos ha]
        constructor
        · intro h
          exact absurd h (by simp)
        · intro h
          exact absurd ha (h a (List.mem_cons_self _ _))
      · simp only [if_neg ha]
        constructor
        · intro _ c hc
          rcases List.mem_cons.mp hc with rfl | hc
          · exact ha
          · exact (ih.mp ht) c hc
        · intro _
          trivial

theorem lookupLower_append_right_some (l1 l2 : List String) (k v : String)
    (h : lookupLower l2 k = some v) : lookupLower (l1 ++ l2) k = some v := by
  induction l1 with
  | nil => simpa using h
  | cons a t ih => rw [List.cons_append, lookupLower, ih]

theorem lookupLower_append_right_none (l1 l2 : List String) (k : String)
    (h : lookupLower l2 k = none) : lookupLower (l1 ++ l2) k = lookupLower l1 k := by
  induction l1 with
  | nil => simpa using h
  | cons a t ih => rw [List.cons_append, lookupLower, ih, lookupLower]

theorem filterMap_congr_fn {α β : Type} (f g : α → Option β) (l : List α)
    (h : ∀ a ∈ l, f a = g a) : l.filterMap f = l.filterMap g := by
  induction l with
  | nil => rfl
  | cons a t ih =>
    rw [List.filterMap_cons, List.filterMap_cons, h a (List.mem_cons_self _ _),
      ih (fun x hx => h x (List.mem_cons_of_mem _ hx))]

theorem default_lowers_nodup : (DEFAULT_CATEGORIES.map lowerStr).Nodup := by decide

theorem mem_filterMap_lookupLower (l ds : List String) (x : String)
    (h : x ∈ ds.filterMap (fun d => lookupLower l (lowerStr d))) :
    x ∈ l ∧ lowerStr x ∈ ds.map lowerStr := by
  obtain ⟨d, hd, hld⟩ := List.mem_filterMap.mp h
  obtain ⟨hx, hlx⟩ := lookupLower_mem _ _ _ hld
  exact ⟨hx, by rw [hlx]; exact List.mem_map_of_mem _ hd⟩

theorem lookupLower_filterMap (l : List String) :
    ∀ (ds : List String), (ds.map lowerStr).Nodup → ∀ k,
      lookupLower (ds.filterMap (fun d => lookupLower l (lowerStr d))) k
        = if k ∈ ds.map lowerStr then lookupLower l k else none := by
  intro ds
  induction ds with
  | nil => intro _ k; simp [lookupLower]
  | cons d t ih =>
    intro hnd k
    rw [List.map_cons] at hnd
    have hnd0 := List.nodup_cons.mp hnd
    have hdl : lowerStr d ∉ t.map lowerStr := hnd0.1
    have hnd2 : (t.map lowerStr).Nodup := hnd0.2
    cases hld : lookupLower l (lowerStr d) with
    | none =>
      have hstep : List.filterMap (fun d2 => lookupLower l (lowerStr d2)) (d :: t)
          = List.filterMap (fun d2 => lookupLower l (lowerStr d2)) t :=
        List.filterMap_cons_none hld
      rw [hstep, ih hnd2 k]
      by_cases hk : k ∈ t.map lowerStr
      · rw [if_pos hk, if_pos (by simp [hk])]
      · rw [if_neg hk]
        by_cases hkd : k = lowerStr d
        · subst hkd
          rw [if_pos (by simp), hld]
        · rw [if_neg (by simp [hk, hkd, Ne.symm hkd])]
    | some c =>
      have hc := lookupLower_mem l (lowerStr d) c hld
      have hstep : List.filterMap (fun d2 => lookupLower l (lowerStr d2)) (d :: t)
          = c :: List.filterMap (fun d2 => lookupLower l (lowerStr d2)) t :=
        List.filterMap_cons_some hld
      rw [hstep, lookupLower, ih hnd2 k]
      by_cases hk : k ∈ t.map lowerStr
      · rw [if_pos hk]
        cases hlk : lookupLower l k with
        | some v => simp [List.map_cons, List.mem_cons, hk, hlk]
        | none =>
          have hck : ¬ lowerStr c = k := by
            rw [hc.2]
            intro hkd
            exact hdl (hkd ▸ hk)
          simp [List.map_cons, List.mem_cons, hk, hlk, hck]
      · rw [if_neg hk]
        by_cases hck : lowerStr c = k
        · have hkd : k = lowerStr d := hck.symm.trans hc.2
          simp [List.map_cons, List.mem_cons, hck, hkd, hld]
        · have hkd : ¬ k = lowerStr d := fun hh => hck (hc.2.trans hh.symm)
          simp [List.map_cons, List.mem_cons, hk, hck, hkd]

theorem lookupLower_baseExact (l : List String) (k : String) :
    lookupLower (baseExact l) k
      = if k ∈ DEFAULT_CATEGORIES.map lowerStr then lookupLower l k else none :=
  lookupLower_filterMap l DEFAULT_CATEGORIES default_lowers_nodup k

theorem baseExact_mem (l : List String) (x : String) (h : x ∈ baseExact l) :
    x ∈ l ∧ lowerStr x ∈ DEFAULT_CATEGORIES.map lowerStr :=
  mem_filterMap_lookupLower l DEFAULT_CATEGORIES x h

theorem lower_mem_baseExact_of_lookup (l : List String) (d c : String)
    (hd : d ∈ DEFAULT_CATEGORIES) (h : lookupLower l (lowerStr d) = some c) :
    c ∈ baseExact l :=
  List.mem_filterMap.mpr ⟨d, hd, h⟩

theorem lookupLower_normalize_default (l : List String) (d : String)
    (hd : d ∈ DEFAULT_CATEGORIES) :
    lookupLower (normalizeCategoriesOrder l) (lowerStr d) = lookupLower l (lowerStr d) := by
  rw [normalizeCategoriesOrder]
  cases hld : lookupLower l (lowerStr d) with
  | some c =>
    have hcb : c ∈ baseExact l := lower_mem_baseExact_of_lookup l d c hd hld
    have hrest : lookupLower
        (sortLower (l.filter (fun c => lowerStr c ∉ (baseExact l).map lowerStr)))
        (lowerStr d) = none := by
      rw [lookupLower_eq_none_iff]
      intro x hx
      have hx2 := (mem_sortLower x _).mp hx
      have := List.of_mem_filter hx2
      simp only [decide_not, Bool.not_eq_true', decide_eq_false_iff_not] at this
      intro hh
      apply this
      rw [hh, ← (lookupLower_mem _ _ _ hld).2]
      exact List.mem_map_of_mem _ hcb
    rw [lookupLower_append_right_none _ _ _ hrest, lookupLower_baseExact,
      if_pos (List.mem_map_of_mem _ hd), hld]
  | none =>
    rw [lookupLower_eq_none_iff]
    intro x hx
    rcases List.mem_append.mp hx with hx | hx
    · exact (lookupLower_eq_none_iff l _).mp hld x (baseExact_mem l x hx).1
    · have hx2 := (mem_sortLower x _).mp hx
      exact (lookupLower_eq_none_iff l _).mp hld x (List.mem_of_mem_filter hx2)

theorem normalize_def (l : List String) : normalizeCategoriesOrder l
    = baseExact l
      ++ sortLower (l.filter (fun c => lowerStr c ∉ (baseExact l).map lowerStr)) := rfl

theorem baseExact_normalize (l : List String) :
    baseExact (normalizeCategoriesOrder l) = baseExact l :=
  filterMap_congr_fn _ _ _ (fun d hd => lookupLower_normalize_default l d hd)

theorem normalize_idem (l : List String) :
    normalizeCategoriesOrder (normalizeCategoriesOrder l) = normalizeCategoriesOrder l := by
  rw [normalize_def (normalizeCategoriesOrder l), baseExact_normalize]
  have h1 : (baseExact l).filter (fun c => lowerStr c ∉ (baseExact l).map lowerStr) = [] := by
    rw [List.filter_eq_nil_iff]
    intro a ha
    simp only [decide_not, Bool.not_eq_true', decide_eq_false_iff_not, not_not]
    exact List.mem_map_of_mem _ ha
  have h2 : (sortLower (l.filter (fun c => lowerStr c ∉ (baseExact l).map lowerStr))).filter
        (fun c => lowerStr c ∉ (baseExact l).map lowerStr)
      = sortLower (l.filter (fun c => lowerStr c ∉ (baseExact l).map lowerStr)) := by
    rw [List.filter_eq_self]
    intro a ha
    exact (List.mem_filter.mp ((mem_sortLower a _).mp ha)).2
  have hfilter : (normalizeCategoriesOrder l).filter
        (fun c => lowerStr c ∉ (baseExact l).map lowerStr)
      = sortLower (l.filter (fun c => lowerStr c ∉ (baseExact l).map lowerStr)) := by
    rw [normalize_def l, List.filter_append, h1, h2, List.nil_append]
  rw [hfilter, sortLower_idem, ← normalize_def]

theorem baseExact_lowers_nodup (l : List String) : ((baseExact l).map lowerStr).Nodup := by
  have hgen : ∀ (ds : List String), (ds.map lowerStr).Nodup →
      ((ds.filterMap (fun d => lookupLower l (lowerStr d))).map lowerStr).Nodup := by
    intro ds
    induction ds with
    | nil => intro _; simp
    | cons d t ih =>
      intro hnd
      rw [List.map_cons] at hnd
      have hnd0 := List.nodup_cons.mp hnd
      cases hld : lookupLower l (lowerStr d) with
      | none =>
        have hstep : List.filterMap (fun d2 => lookupLower l (lowerStr d2)) (d :: t)
            = List.filterMap (fun d2 => lookupLower l (lowerStr d2)) t :=
          List.filterMap_cons_none hld
        rw [hstep]
        exact ih hnd0.2
      | some c =>
        have hstep : List.filterMap (fun d2 => lookupLower l (lowerStr d2)) (d :: t)
            = c :: List.filterMap (fun d2 => lookupLower l (lowerStr d2)) t :=
          List.filterMap_cons_some hld
        rw [hstep, List.map_cons]
        refine List.nodup_cons.mpr ⟨?_, ih hnd0.2⟩
        intro hmem
        obtain ⟨x, hx, hlx⟩ := List.mem_map.mp hmem
        have hx2 := mem_filterMap_lookupLower l t x hx
        apply hnd0.1
        have hc2 := (lookupLower_mem _ _ _ hld).2
        rw [← hc2, ← hlx]
        exact hx2.2
  exact hgen DEFAULT_CATEGORIES default_lowers_nodup

theorem baseExact_nodup (l : List String) : (baseExact l).Nodup :=
  (baseExact_lowers_nodup l).of_map

theorem normalize_nodup (l : List String) (h : l.Nodup) :
    (normalizeCategoriesOrder l).Nodup := by
  rw [normalize_def, List.nodup_append]
  refine ⟨baseExact_nodup l, ((sortLower_perm _).nodup_iff).mpr (h.filter _), ?_⟩
  intro x hx1 hx2
  have hx3 := (mem_sortLower x _).mp hx2
  have hx4 := List.of_mem_filter hx3
  simp only [decide_not, Bool.not_eq_true', decide_eq_false_iff_not] at hx4
  exact hx4 (List.mem_map_of_mem _ hx1)

theorem normalize_ne_nil (l : List String) (h : l ≠ []) :
    normalizeCategoriesOrder l ≠ [] := by
  rw [normalize_def]
  intro hcontra
  rcases List.append_eq_nil.mp hcontra with ⟨hb, hs⟩
  have hfilter : l.filter (fun c => lowerStr c ∉ (baseExact l).map lowerStr) = l := by
    rw [List.filter_eq_self]
    intro a _
    simp [hb]
  rw [hfilter] at hs
  have hlen := (sortLower_perm l).length_eq
  rw [hs] at hlen
  simp only [List.length_nil] at hlen
  exact h (List.eq_nil_of_length_eq_zero hlen.symm)

-- ----------------------------
-- Operations leave the category list alone (except the category ops)
-- ----------------------------

theorem categories_addAccount (s : Store) (b n : String) (bal : Option ℚ) :
    (addAccount s b n bal).categories = s.categories := by
  cases bal with
  | none => rfl
  | some v =>
    by_cases h : b = "" ∨ n = "" <;> simp [addAccount, h]

theorem categories_deleteSelectedAccount (s : Store) (sel : Option String) :
    (deleteSelectedAccount s sel).categories = s.categories := by
  cases sel with
  | none => rfl
  | some id =>
    by_cases h : id = "" ∨ id ∉ assocKeys s.accounts <;> simp [deleteSelectedAccount, h]

theorem categories_updateAccountBalance (s : Store) (sel : Option String) (bal : Option ℚ) :
    (updateAccountBalance s sel bal).categories = s.categories := by
  cases sel with
  | none => rfl
  | some id =>
    by_cases h : id = "" ∨ id ∉ assocKeys s.accounts
    · simp [updateAccountBalance, h]
    · cases bal with
      | none => simp [updateAccountBalance, h]
      | some v => simp [updateAccountBalance, h]

theorem categories_addAccountExpense (s : Store) (sel : Option String) (nm ct : String)
    (amt : Option ℚ) (nt : String) :
    (addAccountExpense s sel nm ct amt nt).categories = s.categories := by
  cases sel with
  | none => rfl
  | some id =>
    by_cases h : id = "" ∨ id ∉ assocKeys s.accounts
    · simp [addAccountExpense, h]
    · cases amt with
      | none => simp [addAccountExpense, h]
      | some v =>
        by_cases h2 : nm = "" ∨ ct = "" <;> simp [addAccountExpense, h, h2]

theorem categories_deleteSelectedAccountExpense (s : Store) (sel : Option String)
    (idx : Option Nat) :
    (deleteSelectedAccountExpense s sel idx).1.categories = s.categories := by
  cases sel with
  | none => rfl
  | some id =>
    by_cases h : id = "" ∨ id ∉ assocKeys s.accounts
    · simp [deleteSelectedAccountExpense, h]
    · cases idx with
      | none => simp [deleteSelectedAccountExpense, h]
      | some i =>
        by_cases hi : i < (match lookupKey s.accounts id with
            | some a => a.fixed_expenses
            | none => []).length
        · simp [deleteSelectedAccountExpense, h, hi]
        · simp [deleteSelectedAccountExpense, h, hi]

theorem categories_addCard (s : Store) (n : String) (due : Option ℚ) :
    (addCard s n due).categories = s.categories := by
  cases due with
  | none => rfl
  | some v => by_cases h : n = "" <;> simp [addCard, h]

theorem categories_deleteSelectedCard (s : Store) (sel : Option String) :
    (deleteSelectedCard s sel).categories = s.categories := by
  cases sel with
  | none => rfl
  | some id =>
    by_cases h : id = "" ∨ id ∉ assocKeys s.cards <;> simp [deleteSelectedCard, h]

theorem categories_updateCardDue (s : Store) (sel : Option String) (due : Option ℚ) :
    (updateCardDue s sel due).categories = s.categories := by
  cases sel with
  | none => rfl
  | some id =>
    by_cases h : id = "" ∨ id ∉ assocKeys s.cards
    · simp [updateCardDue, h]
    · cases due with
      | none => simp [updateCardDue, h]
      | some v => simp [updateCardDue, h]

theorem categories_addCardExpense (s : Store) (sel : Option String) (nm ct : String)
    (amt : Option ℚ) (nt : String) :
    (addCardExpense s sel nm ct amt nt).categories = s.categories := by
  cases sel with
  | none => rfl
  | some id =>
    by_cases h : id = "" ∨ id ∉ assocKeys s.cards
    · simp [addCardExpense, h]
    · cases amt with
      | none => simp [addCardExpense, h]
      | some v =>
        by_cases h2 : nm = "" ∨ ct = "" <;> simp [addCardExpense, h, h2]

theorem categories_deleteSelectedCardExpense (s : Store) (sel : Option String)
    (idx : Option Nat) :
    (deleteSelectedCardExpense s sel idx).1.categories = s.categories := by
  cases sel with
  | none => rfl
  | some id =>
    by_cases h : id = "" ∨ id ∉ assocKeys s.cards
    · simp [deleteSelectedCardExpense, h]
    · cases idx with
      | none => simp [deleteSelectedCardExpense, h]
      | some i =>
        by_cases hi : i < (match lookupKey s.cards id with
            | some c => c.fixed_expenses
            | none => []).length
        · simp [deleteSelectedCardExpense, h, hi]
        · simp [deleteSelectedCardExpense, h, hi]

theorem categories_saveIncome (s : Store) (sal : Option ℚ) (sel : Option String) :
    (saveIncome s sal sel).categories = s.categories := by
  cases sal with
  | none => rfl
  | some v => rfl

theorem categories_addCategory (s : Store) (raw : String) :
    (addCategory s raw).categories = s.categories
      ∨ ∃ name, name ∉ s.categories
          ∧ (addCategory s raw).categories
              = normalizeCategoriesOrder (s.categories ++ [name]) := by
  by_cases h1 : strip raw = ""
  · left
    simp [addCategory, h1]
  · by_cases h2 : (s.categories.map lowerStr).contains (lowerStr (collapseWS (strip raw)))
    · left
      have h2e : ∃ a ∈ s.categories, lowerStr a = lowerStr (collapseWS (strip raw)) := by
        simpa using h2
      simp [addCategory, h1, h2e]
    · have h2e : ¬ ∃ a ∈ s.categories, lowerStr a = lowerStr (collapseWS (strip raw)) := by
        simpa using h2
      right
      refine ⟨collapseWS (strip raw), fun hmem => ?_, by simp [addCategory, h1, h2e]⟩
      exact h2e ⟨collapseWS (strip raw), hmem, rfl⟩

theorem categories_deleteCategory (s : Store) (cat : String) :
    (deleteCategory s cat).1.categories = s.categories
      ∨ (strip cat ∈ s.categories ∧ 2 ≤ s.categories.length
          ∧ (deleteCategory s cat).1.categories
              = normalizeCategoriesOrder (s.categories.filter (· ≠ strip cat))) := by
  by_cases h1 : strip cat = ""
  · left
    simp [deleteCategory, h1]
  · by_cases h2 : strip cat ∉ s.categories
    · left
      simp [deleteCategory, h1, h2]
    · by_cases h3 : s.categories.length ≤ 1
      · left
        simp [deleteCategory, h1, h2, h3]
      · by_cases h4 : categoryBlockers s (strip cat) ≠ []
        · left
          simp [deleteCategory, h1, h2, h3, h4]
        · right
          exact ⟨not_not.mp h2, by omega, by simp [deleteCategory, h1, h2, h3, h4]⟩

-- ----------------------------
-- Reachability invariant on the category list
-- ----------------------------

theorem reachable_categories (s : Store) (h : Reachable s) :
    s.categories ≠ [] ∧ s.categories.Nodup
      ∧ normalizeCategoriesOrder s.categories = s.categories := by
  induction h with
  | init => exact ⟨by decide, by decide, by decide⟩
  | addAccount s bank accName bal hr ih => rw [categories_addAccount]; exact ih
  | deleteSelectedAccount s sel hr ih => rw [categories_deleteSelectedAccount]; exact ih
  | updateAccountBalance s sel bal hr ih => rw [categories_updateAccountBalance]; exact ih
  | addAccountExpense s sel nm ct amt nt hr ih => rw [categories_addAccountExpense]; exact ih
  | deleteSelectedAccountExpense s sel idx hr ih =>
    rw [categories_deleteSelectedAccountExpense]; exact ih
  | addCard s nm due hr ih => rw [categories_addCard]; exact ih
  | deleteSelectedCard s sel hr ih => rw [categories_deleteSelectedCard]; exact ih
  | updateCardDue s sel due hr ih => rw [categories_updateCardDue]; exact ih
  | addCardExpense s sel nm ct amt nt hr ih => rw [categories_addCardExpense]; exact ih
  | deleteSelectedCardExpense s sel idx hr ih =>
    rw [categories_deleteSelectedCardExpense]; exact ih
  | saveIncome s sal sel hr ih => rw [categories_saveIncome]; exact ih
  | addCategory s raw hr ih =>
    rcases categories_addCategory s raw with heq | ⟨name, hnm, heq⟩
    · rw [heq]; exact ih
    · rw [heq]
      obtain ⟨hne, hnd, _⟩ := ih
      refine ⟨normalize_ne_nil _ (by simp), normalize_nodup _ ?_, normalize_idem _⟩
      rw [List.nodup_append]
      refine ⟨hnd, List.nodup_singleton _, ?_⟩
      intro x hx hx2
      rw [List.mem_singleton] at hx2
      exact hnm (hx2 ▸ hx)
  | deleteCategory s cat hr ih =>
    rcases categories_deleteCategory s cat with heq | ⟨hmem, hlen, heq⟩
    · rw [heq]; exact ih
    · rw [heq]
      obtain ⟨hne, hnd, _⟩ := ih
      refine ⟨normalize_ne_nil _ ?_, normalize_nodup _ (hnd.filter _), normalize_idem _⟩
      have hex : ∃ x ∈ s.categories, x ≠ strip cat := by
        rcases hcs : s.categories with _ | ⟨a, t⟩
        · rw [hcs] at hlen
          simp at hlen
        · rcases hts : t with _ | ⟨b, t2⟩
          · rw [hcs, hts] at hlen
            simp at hlen
          · rw [hcs, hts] at hnd
            by_cases ha : a = strip cat
            · refine ⟨b, by simp, ?_⟩
              have hab : a ≠ b := by
                have := List.nodup_cons.mp hnd
                intro hh
                exact this.1 (hh ▸ List.mem_cons_self b t2)
              exact fun hh => hab (ha.trans hh.symm)
            · exact ⟨a, by simp, ha⟩
      obtain ⟨x, hx, hxne⟩ := hex
      intro hnil
      have hxin : x ∈ s.categories.filter (· ≠ strip cat) :=
        List.mem_filter.mpr ⟨hx, by simp [hxne]⟩
      rw [hnil] at hxin
      simp at hxin

-- ----------------------------
-- Serialize / load round trip
-- ----------------------------

theorem parseExpense_serialize (e : FixedExpense) :
    parseExpense (serializeExpense e) = some e := by
  obtain ⟨n, c, a, nt⟩ := e
  rfl

theorem parseList_serializeExpense (l : List FixedExpense) :
    parseList parseExpense (l.map serializeExpense) = some l := by
  induction l with
  | nil => rfl
  | cons e t ih => simp [parseList, parseExpense_serialize, ih]

theorem parseExpenses_serialize (l : List FixedExpense) :
    parseExpenses (some (Json.arr (l.map serializeExpense))) = some l := by
  simpa [parseExpenses] using parseList_serializeExpense l

theorem parseAccountObj_serialize (a : BankAccount) :
    parseAccountObj (serializeAccount a) = some a := by
  obtain ⟨bn, an, b, exps⟩ := a
  have hred : parseAccountObj (serializeAccount ⟨bn, an, b, exps⟩)
      = (parseExpenses (some (Json.arr (exps.map serializeExpense)))).bind fun exps2 =>
          some ⟨bn, an, b, exps2⟩ := rfl
  rw [hred, parseExpenses_serialize]
  rfl

theorem parseCardObj_serialize (c : CreditCard) :
    parseCardObj (serializeCard c) = some c := by
  obtain ⟨cn, d, exps⟩ := c
  have hred : parseCardObj (serializeCard ⟨cn, d, exps⟩)
      = (parseExpenses (some (Json.arr (exps.map serializeExpense)))).bind fun exps2 =>
          some ⟨cn, d, exps2⟩ := rfl
  rw [hred, parseExpenses_serialize]
  rfl

theorem parseAssoc_serializeAccount (l : List (String × BankAccount)) :
    parseAssoc parseAccountObj (l.map (fun p => (p.1, serializeAccount p.2))) = some l := by
  induction l with
  | nil => rfl
  | cons p t ih => simp [parseAssoc, parseAccountObj_serialize, ih]

theorem parseAssoc_serializeCard (l : List (String × CreditCard)) :
    parseAssoc parseCardObj (l.map (fun p => (p.1, serializeCard p.2))) = some l := by
  induction l with
  | nil => rfl
  | cons p t ih => simp [parseAssoc, parseCardObj_serialize, ih]

theorem parseList_str (l : List String) :
    parseList (fun it => match it with | Json.str t => some t | _ => none)
      (l.map Json.str) = some l := by
  induction l with
  | nil => rfl
  | cons a t ih => simp [parseList, ih]

theorem parseState_serialize_core (accs : List (String × BankAccount))
    (cds : List (String × CreditCard)) (inc : Income) (c0 : String) (ct : List String)
    (last : Option String) :
    parseState (serialize (Store.mk accs cds inc (c0 :: ct) last))
      = some (Store.mk accs cds inc (migrateCats (c0 :: ct)) last) := by
  obtain ⟨v, aid⟩ := inc
  have hred : parseState (serialize (Store.mk accs cds ⟨v, aid⟩ (c0 :: ct) last))
      = (parseList (fun it => match it with | Json.str t => some t | _ => none)
            ((c0 :: ct).map Json.str)).bind fun cats2 =>
          (parseAssoc parseAccountObj
            (accs.map (fun p => (p.1, serializeAccount p.2)))).bind fun accs2 =>
          (parseAssoc parseCardObj
            (cds.map (fun p => (p.1, serializeCard p.2)))).bind fun cds2 =>
          some (Store.mk accs2 cds2 ⟨v, aid⟩ (migrateCats cats2) last) := by
    cases last <;> cases aid <;> rfl
  rw [hred, parseList_str, parseAssoc_serializeAccount, parseAssoc_serializeCard]
  rfl

theorem parseState_serialize (s : Store) (h : s.categories ≠ []) :
    parseState (serialize s) = some { s with categories := migrateCats s.categories } := by
  obtain ⟨accs, cds, inc, cats, last⟩ := s
  cases cats with
  | nil => exact absurd rfl h
  | cons c0 ct => exact parseState_serialize_core accs cds inc c0 ct last

theorem loadState_serialize (s : Store) (h : s.categories ≠ []) :
    loadState (serialize s) = { s with categories := migrateCats s.categories } := by
  have hff : jsonFalsy (serialize s) = false := rfl
  simp [loadState, hff, parseState_serialize s h]

-- ----------------------------
-- C1: save/load round trip
-- ----------------------------

/-- Counterexample to claim C1 as stated: the store reached from the
startup state by deleting the (unused, non-last) default category
`Viaggi` does not round-trip — `_load_state` re-appends every missing
default category, so the loaded store's category contents differ from
the saved store's. -/
theorem claim_C1_counterexample :
    Reachable (deleteCategory initStore "Viaggi").1
      ∧ (loadState (serialize (deleteCategory initStore "Viaggi").1)).categories
          ≠ (deleteCategory initStore "Viaggi").1.categories :=
  ⟨Reachable.deleteCategory initStore "Viaggi" Reachable.init, by decide⟩

/-- Claim C1 (amended): for every store reachable through the public
mutation operations, loading the saved document reproduces the
accounts, cards, and income exactly; the loaded category list is the
saved one with the missing canonical defaults appended and the order
re-normalized — in particular, whenever every default category is still
present (case-insensitively), the category contents are reproduced
exactly as well. -/
theorem claim_C1_save_load_roundtrip (s : Store) (hr : Reachable s) :
    (loadState (serialize s)).accounts = s.accounts
      ∧ (loadState (serialize s)).cards = s.cards
      ∧ (loadState (serialize s)).income = s.income
      ∧ (loadState (serialize s)).categories
          = normalizeCategoriesOrder (s.categories
              ++ DEFAULT_CATEGORIES.filter (fun d => lowerStr d ∉ s.categories.map lowerStr))
      ∧ (DEFAULT_CATEGORIES.filter (fun d => lowerStr d ∉ s.categories.map lowerStr) = [] →
          (loadState (serialize s)).categories = s.categories) := by
  obtain ⟨hne, hnd, hnorm⟩ := reachable_categories s hr
  rw [loadState_serialize s hne]
  refine ⟨rfl, rfl, rfl, rfl, fun hmiss => ?_⟩
  show migrateCats s.categories = s.categories
  rw [migrateCats, hmiss, List.append_nil, hnorm]

/-- Witness for C1 (amended) at the startup store, where no default
category is missing. -/
theorem claim_C1_witness :
    (loadState (serialize initStore)).accounts = initStore.accounts
      ∧ (loadState (serialize initStore)).categories = initStore.categories := by
  have h := claim_C1_save_load_roundtrip initStore Reachable.init
  exact ⟨h.1, h.2.2.2.2 (by decide)⟩

-- ----------------------------
-- C8 groundwork: rounding and digit-character facts
-- ----------------------------

theorem abs_roundHalfEven_sub (q : ℚ) : |((roundHalfEven q : ℤ) : ℚ) - q| ≤ 1 / 2 := by
  have h0 : (⌊q⌋ : ℚ) ≤ q := Int.floor_le q
  have h1 : q < ⌊q⌋ + 1 := Int.lt_floor_add_one q
  rw [roundHalfEven]
  by_cases hc1 : q - ⌊q⌋ < 1 / 2
  · rw [if_pos hc1, abs_le]
    constructor <;> linarith
  · rw [if_neg hc1]
    by_cases hc2 : 1 / 2 < q - ⌊q⌋
    · rw [if_pos hc2]
      rw [abs_le]
      push_cast
      constructor <;> linarith
    · rw [if_neg hc2]
      have heq : q - ⌊q⌋ = 1 / 2 := by linarith
      by_cases hc3 : ⌊q⌋ % 2 = 0
      · rw [if_pos hc3, abs_le]
        constructor <;> linarith
      · rw [if_neg hc3, abs_le]
        push_cast
        constructor <;> linarith

theorem digit_char_ne (c : Char) (hc : c.isDigit = true) :
    c ≠ '.' ∧ c ≠ ',' ∧ c ≠ '€' ∧ c ≠ ' ' ∧ c ≠ '-' ∧ c ≠ '+' ∧ isWS c = false := by
  have hb : 48 ≤ c.toNat ∧ c.toNat ≤ 57 := by
    simp [Char.isDigit] at hc
    exact ⟨hc.1, hc.2⟩
  refine ⟨?_, ?_, ?_, ?_, ?_, ?_, ?_⟩
  · rintro rfl
    exact absurd hb (by decide)
  · rintro rfl
    exact absurd hb (by decide)
  · rintro rfl
    exact absurd hb (by decide)
  · rintro rfl
    exact absurd hb (by decide)
  · rintro rfl
    exact absurd hb (by decide)
  · rintro rfl
    exact absurd hb (by decide)
  · simp only [isWS, Bool.or_eq_false_iff]
    refine ⟨⟨⟨?_, ?_⟩, ?_⟩, ?_⟩ <;>
      · rw [decide_eq_false_iff_not]
        rintro rfl
        exact absurd hb (by decide)

theorem natDigits_ne_nil (k : Nat) : natDigits k ≠ [] := by
  rw [natDigits, natDigitsAux]
  split
  · simp
  · simp

theorem digitsVal_pad2 (k : Nat) (h : k < 100) : digitsVal (pad2 k) = k := by
  have h1 := digitChar_toNat (k / 10) (by omega)
  have h2 := digitChar_toNat (k % 10) (by omega)
  simp [pad2, digitsVal, h1, h2]
  omega

theorem pad2_digits (k : Nat) (h : k < 100) : ∀ c ∈ pad2 k, c.isDigit = true := by
  intro c hc
  rcases List.mem_cons.mp hc with rfl | hc
  · exact digitChar_isDigit _ (by omega)
  · rcases List.mem_singleton.mp (by simpa [pad2] using hc) with rfl
    exact digitChar_isDigit _ (by omega)

theorem mem_group3rev (l : List Char) (c : Char) (h : c ∈ group3rev l) :
    c ∈ l ∨ c = '.' := by
  induction l using group3rev.induct with
  | case1 a b c2 d rest ih =>
    rw [group3rev] at h
    rcases List.mem_cons.mp h with rfl | h
    · exact Or.inl (by simp)
    · rcases List.mem_cons.mp h with rfl | h
      · exact Or.inl (by simp)
      · rcases List.mem_cons.mp h with rfl | h
        · exact Or.inl (by simp)
        · rcases List.mem_cons.mp h with rfl | h
          · exact Or.inr rfl
          · rcases ih h with h | h
            · exact Or.inl (by simp [List.mem_cons.mp h])
            · exact Or.inr h
  | case2 l hne =>
    rw [group3rev] at h
    · exact Or.inl h
    · exact hne

theorem filter_dot_group3rev (l : List Char) (hl : ∀ c ∈ l, c ≠ '.') :
    (group3rev l).filter (· ≠ '.') = l := by
  induction l using group3rev.induct with
  | case1 a b c2 d rest ih =>
    have ha := hl a (by simp)
    have hb := hl b (by simp)
    have hc2 := hl c2 (by simp)
    rw [group3rev]
    simp only [List.filter_cons]
    rw [if_pos (by simpa using ha), if_pos (by simpa using hb), if_pos (by simpa using hc2),
      if_neg (by simp)]
    rw [ih (fun x hx => hl x (by simp [List.mem_cons.mp hx]))]
  | case2 l hne =>
    rw [group3rev]
    · rw [List.filter_eq_self]
      intro a ha
      simpa using hl a ha
    · exact hne

theorem takeWhile_ne_dot_append (l1 l2 : List Char) (h : ∀ c ∈ l1, c ≠ '.') :
    (l1 ++ '.' :: l2).takeWhile (· ≠ '.') = l1 := by
  induction l1 with
  | nil => simp [List.takeWhile_cons]
  | cons a t ih =>
    rw [List.cons_append, List.takeWhile_cons, if_pos (by simpa using h a (by simp))]
    rw [ih (fun c hc => h c (List.mem_cons_of_mem _ hc))]

theorem dropWhile_ne_dot_append (l1 l2 : List Char) (h : ∀ c ∈ l1, c ≠ '.') :
    (l1 ++ '.' :: l2).dropWhile (· ≠ '.') = '.' :: l2 := by
  induction l1 with
  | nil => simp [List.dropWhile_cons]
  | cons a t ih =>
    rw [List.cons_append, List.dropWhile_cons, if_pos (by simpa using h a (by simp))]
    exact ih (fun c hc => h c (List.mem_cons_of_mem _ hc))

-- ----------------------------
-- C8: the cleaning chain of `_safe_float` on `_fmt_eur` output
-- ----------------------------

theorem dropWhile_isWS_head (l : List Char) (c : Char) (hc : isWS c = false) :
    (c :: l).dropWhile isWS = c :: l := by
  rw [List.dropWhile_cons, if_neg (by simp [hc])]

theorem trimWS_shape (sign ints ft : List Char) (flast : Char)
    (hflast : isWS flast = false) :
    trimWS ('€' :: ' ' :: (sign ++ ints ++ ',' :: ft ++ [flast]))
      = '€' :: ' ' :: (sign ++ ints ++ ',' :: ft ++ [flast]) := by
  have hsplit : '€' :: ' ' :: (sign ++ ints ++ ',' :: ft ++ [flast])
      = ('€' :: ' ' :: (sign ++ ints ++ ',' :: ft)) ++ [flast] := by
    simp [List.append_assoc]
  rw [trimWS, dropWhile_isWS_head _ _ (by decide), hsplit, List.reverse_append]
  rw [show ([flast] : List Char).reverse ++ ('€' :: ' ' :: (sign ++ ints ++ ',' :: ft)).reverse
      = flast :: ('€' :: ' ' :: (sign ++ ints ++ ',' :: ft)).reverse from rfl]
  rw [dropWhile_isWS_head _ _ hflast]
  simp

theorem filter_eq_self_of_ne (l : List Char) (ch : Char) (h : ∀ c ∈ l, c ≠ ch) :
    l.filter (· ≠ ch) = l := by
  rw [List.filter_eq_self]
  intro a ha
  simpa using h a ha

theorem map_comma_eq_self (l : List Char) (h : ∀ c ∈ l, c ≠ ',') :
    l.map (fun c => if c = ',' then '.' else c) = l := by
  have : l.map (fun c => if c = ',' then '.' else c) = l.map id := by
    refine List.map_congr_left (fun c hc => ?_)
    rw [if_neg (h c hc)]
    rfl
  rw [this, List.map_id]

theorem cleanChars_shape (sign ip frac : List Char)
    (hsign : sign = [] ∨ sign = ['-'])
    (hip : ∀ c ∈ ip, c.isDigit = true)
    (hfrac : ∀ c ∈ frac, c.isDigit = true)
    (hfne : frac ≠ []) :
    cleanChars ('€' :: ' ' :: (sign ++ (group3rev ip.reverse).reverse ++ ',' :: frac))
      = sign ++ ip ++ '.' :: frac := by
  obtain ⟨ft, flast, hfsplit⟩ : ∃ ft flast, frac = ft ++ [flast] := by
    rcases List.eq_nil_or_concat frac with h | ⟨ft, a, h⟩
    · exact absurd h hfne
    · exact ⟨ft, a, by simpa [List.concat_eq_append] using h⟩
  have hflastd : flast.isDigit = true := hfrac flast (by rw [hfsplit]; simp)
  -- membership classification for the three filters
  have hints : ∀ c ∈ (group3rev ip.reverse).reverse, c.isDigit = true ∨ c = '.' := by
    intro c hc
    rcases mem_group3rev _ c (List.mem_reverse.mp hc) with h | h
    · exact Or.inl (hip c (List.mem_reverse.mp h))
    · exact Or.inr h
  have hsign_ne : ∀ ch : Char, ch ≠ '-' → ∀ c ∈ sign, c ≠ ch := by
    intro ch hch c hc
    rcases hsign with rfl | rfl
    · simp at hc
    · rcases List.mem_singleton.mp hc with rfl
      exact fun hh => hch (hh ▸ rfl)
  -- step 1: strip is the identity here
  have h1 : trimWS ('€' :: ' ' :: (sign ++ (group3rev ip.reverse).reverse ++ ',' :: frac))
      = '€' :: ' ' :: (sign ++ (group3rev ip.reverse).reverse ++ ',' :: frac) := by
    rw [hfsplit]
    simpa [List.append_assoc] using trimWS_shape sign ((group3rev ip.reverse).reverse) ft flast
      (digit_char_ne flast hflastd).2.2.2.2.2.2
  -- step 2: drop the currency marker
  have h2 : ('€' :: ' ' :: (sign ++ (group3rev ip.reverse).reverse ++ ',' :: frac)).filter
        (· ≠ '€')
      = ' ' :: (sign ++ (group3rev ip.reverse).reverse ++ ',' :: frac) := by
    rw [List.filter_cons, if_neg (by simp), List.filter_cons, if_pos (by simp)]
    congr 1
    rw [List.filter_append, List.filter_append]
    rw [filter_eq_self_of_ne _ _ (hsign_ne '€' (by decide))]
    rw [filter_eq_self_of_ne _ _ (fun c hc => by
      rcases hints c hc with h | rfl
      · exact (digit_char_ne c h).2.2.1
      · decide)]
    rw [filter_eq_self_of_ne _ _ (fun c hc => by
      rcases List.mem_cons.mp hc with rfl | hc
      · decide
      · exact (digit_char_ne c (hfrac c hc)).2.2.1)]
  -- step 3: drop the spaces
  have h3 : (' ' :: (sign ++ (group3rev ip.reverse).reverse ++ ',' :: frac)).filter (· ≠ ' ')
      = sign ++ (group3rev ip.reverse).reverse ++ ',' :: frac := by
    rw [List.filter_cons, if_neg (by simp)]
    rw [List.filter_append, List.filter_append]
    rw [filter_eq_self_of_ne _ _ (hsign_ne ' ' (by decide))]
    rw [filter_eq_self_of_ne _ _ (fun c hc => by
      rcases hints c hc with h | rfl
      · exact (digit_char_ne c h).2.2.2.1
      · decide)]
    rw [filter_eq_self_of_ne _ _ (fun c hc => by
      rcases List.mem_cons.mp hc with rfl | hc
      · decide
      · exact (digit_char_ne c (hfrac c hc)).2.2.2.1)]
  -- step 4: drop the grouping dots
  have h4 : (sign ++ (group3rev ip.reverse).reverse ++ ',' :: frac).filter (· ≠ '.')
      = sign ++ ip ++ ',' :: frac := by
    have h4a : (',' :: frac).filter (· ≠ '.') = ',' :: frac :=
      filter_eq_self_of_ne _ _ (fun c hc => by
        rcases List.mem_cons.mp hc with rfl | hc
        · decide
        · exact (digit_char_ne c (hfrac c hc)).1)
    have h4b : ((group3rev ip.reverse).reverse).filter (· ≠ '.') = ip := by
      rw [List.filter_reverse, filter_dot_group3rev _ (fun c hc =>
        (digit_char_ne c (hip c (List.mem_reverse.mp hc))).1), List.reverse_reverse]
    have h4c : sign.filter (· ≠ '.') = sign :=
      filter_eq_self_of_ne _ _ (hsign_ne '.' (by decide))
    rw [List.filter_append, List.filter_append, h4a, h4b, h4c]
  -- step 5: the comma becomes the decimal point
  have h5 : (sign ++ ip ++ ',' :: frac).map (fun c => if c = ',' then '.' else c)
      = sign ++ ip ++ '.' :: frac := by
    rw [List.map_append, List.map_append]
    rw [map_comma_eq_self _ (hsign_ne ',' (by decide))]
    rw [map_comma_eq_self _ (fun c hc => (digit_char_ne c (hip c hc)).2.1)]
    rw [List.map_cons, if_pos rfl]
    rw [map_comma_eq_self _ (fun c hc => (digit_char_ne c (hfrac c hc)).2.1)]
  rw [cleanChars, h1, h2, h3, h4, h5]

theorem parseUnsigned_digits (ip frac : List Char)
    (hip : ∀ c ∈ ip, c.isDigit = true)
    (hfrac : ∀ c ∈ frac, c.isDigit = true)
    (hne : ip ≠ [] ∨ frac ≠ []) :
    parseUnsigned (ip ++ '.' :: frac)
      = some (digitsVal ip + digitsVal frac / (10 : ℚ) ^ frac.length) := by
  have hipd : ∀ c ∈ ip, c ≠ '.' := fun c hc => (digit_char_ne c (hip c hc)).1
  have ht := takeWhile_ne_dot_append ip frac hipd
  have hd := dropWhile_ne_dot_append ip frac hipd
  simp only [parseUnsigned, ht, hd]
  rw [if_pos ⟨by simpa [digitsOk, List.all_eq_true] using hip,
    by simpa [digitsOk, List.all_eq_true] using hfrac, hne⟩]

theorem div100_frac_cast (m : Nat) :
    ((m / 100 : Nat) : ℚ) + ((m % 100 : Nat) : ℚ) / (10 : ℚ) ^ 2 = ((m : Nat) : ℚ) / 100 := by
  have h' : (100 : ℚ) * ((m / 100 : Nat) : ℚ) + ((m % 100 : Nat) : ℚ) = ((m : Nat) : ℚ) := by
    exact_mod_cast congrArg (fun k : Nat => (k : ℚ)) (Nat.div_add_mod m 100)
  have h10 : (10 : ℚ) ^ 2 = 100 := by norm_num
  rw [h10]
  field_simp
  linarith

theorem safeFloat_fmtEur (x : ℚ) :
    safeFloat (fmtEur x) = some (((roundHalfEven (100 * x) : ℤ) : ℚ) / 100) := by
  have hclean : cleanChars (fmtEurChars x)
      = (if roundHalfEven (100 * x) < 0 then ['-'] else [])
        ++ natDigits ((roundHalfEven (100 * x)).natAbs / 100)
        ++ '.' :: pad2 ((roundHalfEven (100 * x)).natAbs % 100) := by
    have h := cleanChars_shape
      (if roundHalfEven (100 * x) < 0 then ['-'] else [])
      (natDigits ((roundHalfEven (100 * x)).natAbs / 100))
      (pad2 ((roundHalfEven (100 * x)).natAbs % 100))
      (by split
          · exact Or.inr rfl
          · exact Or.inl rfl)
      (fun c hc => isDigit_of_mem_natDigits _ c hc)
      (pad2_digits _ (Nat.mod_lt _ (by norm_num)))
      (by simp [pad2])
    simpa only [fmtEurChars] using h
  have hu := parseUnsigned_digits
    (natDigits ((roundHalfEven (100 * x)).natAbs / 100))
    (pad2 ((roundHalfEven (100 * x)).natAbs % 100))
    (fun c hc => isDigit_of_mem_natDigits _ c hc)
    (pad2_digits _ (Nat.mod_lt _ (by norm_num)))
    (Or.inl (natDigits_ne_nil _))
  rw [digitsVal_natDigits, digitsVal_pad2 _ (Nat.mod_lt _ (by norm_num))] at hu
  have hlen : (pad2 ((roundHalfEven (100 * x)).natAbs % 100)).length = 2 := rfl
  rw [hlen, div100_frac_cast ((roundHalfEven (100 * x)).natAbs)] at hu
  show parseSigned (cleanChars (fmtEurChars x)) = _
  rw [hclean]
  by_cases hneg : roundHalfEven (100 * x) < 0
  · rw [if_pos hneg]
    have hstep : parseSigned
        (['-'] ++ natDigits ((roundHalfEven (100 * x)).natAbs / 100)
          ++ '.' :: pad2 ((roundHalfEven (100 * x)).natAbs % 100))
        = (parseUnsigned (natDigits ((roundHalfEven (100 * x)).natAbs / 100)
            ++ '.' :: pad2 ((roundHalfEven (100 * x)).natAbs % 100))).map (fun q => -q) := by
      rw [show (['-'] ++ natDigits ((roundHalfEven (100 * x)).natAbs / 100)
          ++ '.' :: pad2 ((roundHalfEven (100 * x)).natAbs % 100) : List Char)
        = '-' :: (natDigits ((roundHalfEven (100 * x)).natAbs / 100)
          ++ '.' :: pad2 ((roundHalfEven (100 * x)).natAbs % 100)) from rfl]
      rw [parseSigned, if_pos rfl]
    rw [hstep, hu]
    have hcast : (((roundHalfEven (100 * x)).natAbs : Nat) : ℚ)
        = -((roundHalfEven (100 * x) : ℤ) : ℚ) := by
      rw [Int.cast_natAbs]
      exact_mod_cast abs_of_neg hneg
    simp only [Option.map_some']
    rw [hcast]
    congr 1
    ring
  · rw [if_neg hneg]
    rw [List.nil_append]
    obtain ⟨hc, tc, hA⟩ : ∃ hc tc,
        natDigits ((roundHalfEven (100 * x)).natAbs / 100) = hc :: tc := by
      cases hN : natDigits ((roundHalfEven (100 * x)).natAbs / 100) with
      | nil => exact absurd hN (natDigits_ne_nil _)
      | cons hc tc => exact ⟨hc, tc, rfl⟩
    have hhd : hc.isDigit = true :=
      isDigit_of_mem_natDigits _ hc (by rw [hA]; exact List.mem_cons_self _ _)
    have hstep : parseSigned (natDigits ((roundHalfEven (100 * x)).natAbs / 100)
          ++ '.' :: pad2 ((roundHalfEven (100 * x)).natAbs % 100))
        = parseUnsigned (natDigits ((roundHalfEven (100 * x)).natAbs / 100)
          ++ '.' :: pad2 ((roundHalfEven (100 * x)).natAbs % 100)) := by
      rw [hA]
      rw [show ((hc :: tc : List Char)
          ++ '.' :: pad2 ((roundHalfEven (100 * x)).natAbs % 100) : List Char)
        = hc :: (tc ++ '.' :: pad2 ((roundHalfEven (100 * x)).natAbs % 100)) from rfl]
      rw [parseSigned, if_neg (digit_char_ne hc hhd).2.2.2.2.1,
        if_neg (digit_char_ne hc hhd).2.2.2.2.2.1]
    rw [hstep, hu]
    have hcast : (((roundHalfEven (100 * x)).natAbs : Nat) : ℚ)
        = ((roundHalfEven (100 * x) : ℤ) : ℚ) := by
      rw [Int.cast_natAbs]
      exact_mod_cast abs_of_nonneg (not_lt.mp hneg)
    rw [hcast]

/-- C8: money formatting/parsing round-trip.  For every amount `x`,
`_safe_float (_fmt_eur x)` succeeds and returns `x` rounded to the
nearest cent (so within `0.005` of `x`); and the rendered text starts
with the currency marker `'€'` and a space, then an optional minus
sign, then integer digits interleaved only with grouping dots, then a
comma followed by exactly two fraction digits. -/
theorem claim_C8_money_roundtrip (x : ℚ) :
    (∃ q, safeFloat (fmtEur x) = some q
      ∧ q = ((roundHalfEven (100 * x) : ℤ) : ℚ) / 100
      ∧ |q - x| ≤ 1 / 200) ∧
    (∃ sign ints d1 d2,
      (sign = [] ∨ sign = ['-'])
      ∧ (∀ c ∈ ints, c.isDigit = true ∨ c = '.')
      ∧ d1.isDigit = true ∧ d2.isDigit = true
      ∧ fmtEurChars x = '€' :: ' ' :: (sign ++ ints ++ [',', d1, d2])) := by
  constructor
  · refine ⟨((roundHalfEven (100 * x) : ℤ) : ℚ) / 100, safeFloat_fmtEur x, rfl, ?_⟩
    have h := abs_roundHalfEven_sub (100 * x)
    have he : ((roundHalfEven (100 * x) : ℤ) : ℚ) / 100 - x
        = (((roundHalfEven (100 * x) : ℤ) : ℚ) - 100 * x) / 100 := by ring
    rw [he, abs_div]
    have h100 : |(100 : ℚ)| = 100 := by norm_num
    rw [h100]
    linarith
  · refine ⟨if roundHalfEven (100 * x) < 0 then ['-'] else [],
      (group3rev (natDigits ((roundHalfEven (100 * x)).natAbs / 100)).reverse).reverse,
      digitChar (((roundHalfEven (100 * x)).natAbs % 100) / 10),
      digitChar (((roundHalfEven (100 * x)).natAbs % 100) % 10), ?_, ?_, ?_, ?_, rfl⟩
    · split
      · exact Or.inr rfl
      · exact Or.inl rfl
    · intro c hc
      rcases mem_group3rev _ c (List.mem_reverse.mp hc) with h | h
      · exact Or.inl (isDigit_of_mem_natDigits _ c (List.mem_reverse.mp h))
      · exact Or.inr h
    · exact digitChar_isDigit _ (by
        have : (roundHalfEven (100 * x)).natAbs % 100 < 100 := Nat.mod_lt _ (by norm_num)
        omega)
    · exact digitChar_isDigit _ (by
        have : (roundHalfEven (100 * x)).natAbs % 100 % 10 < 10 := Nat.mod_lt _ (by norm_num)
        omega)

end FinanceTool
